import Mathlib

/-!
Verification development for the alex-db storage engine
(`alex-db-lib/src/db.rs`).

The Rust `BTreeMap` indexes are embedded as sorted association lists
(`SMap`), the primary `HashMap` as the same structure (it is observed
only through `get`/`insert`/`remove`, for which the two agree).  Times
are `Int` nanoseconds, ids (`Uuid`) are `Nat`, `i64` arithmetic wraps
explicitly modulo `2 ^ 64`.  Operations that can `panic!`/`unwrap` on
`None` in Rust return `OpResult.panicked`; `Err` returns carry the
mutated state, mirroring the source where `?` fires after `stats` was
already bumped.
-/

set_option maxHeartbeats 1000000

/-- Association list kept sorted by key: the shallow embedding of
`std::collections::BTreeMap` (and of the primary `HashMap`). -/
abbrev SMap (K V : Type) : Type := List (K × V)

namespace SMap

variable {K V : Type} [LinearOrder K]

/-- The empty map (`BTreeMap::new`). -/
def empty : SMap K V := []

/-- Rust `BTreeMap::get`. -/
def get (k : K) : SMap K V → Option V
  | [] => none
  | (k', v) :: t => if k = k' then some v else get k t

/-- Rust `BTreeMap::insert`: replaces the binding of `k` if present,
otherwise adds it at its sorted position. -/
def insert (k : K) (v : V) : SMap K V → SMap K V
  | [] => [(k, v)]
  | (k', v') :: t =>
    if k < k' then (k, v) :: (k', v') :: t
    else if k = k' then (k, v) :: t
    else (k', v') :: insert k v t

/-- Rust `BTreeMap::remove` (the removed value is recovered with `get`). -/
def remove (k : K) : SMap K V → SMap K V
  | [] => []
  | (k', v') :: t => if k = k' then t else (k', v') :: remove k t

/-- Strictly ascending keys: the structural invariant every
`BTreeMap` maintains. -/
def Sorted (m : SMap K V) : Prop := m.Pairwise (fun a b => a.1 < b.1)

theorem sorted_empty : (empty : SMap K V).Sorted := List.Pairwise.nil

theorem get_empty (k : K) : (empty : SMap K V).get k = none := rfl

theorem get_insert_self (k : K) (v : V) (m : SMap K V) :
    (insert k v m).get k = some v := by
  induction m with
  | nil => simp [insert, get]
  | cons h t ih =>
    obtain ⟨k', v'⟩ := h
    by_cases hlt : k < k'
    · simp [insert, hlt, get]
    · by_cases heq : k = k'
      · simp [insert, hlt, heq, get]
      · simp [insert, hlt, heq, get, ih]

theorem get_insert_ne (k k' : K) (v : V) (m : SMap K V) (hne : k' ≠ k) :
    (insert k v m).get k' = m.get k' := by
  induction m with
  | nil => simp [insert, get, hne]
  | cons h t ih =>
    obtain ⟨k₀, v₀⟩ := h
    by_cases hlt : k < k₀
    · simp only [insert, if_pos hlt, get, if_neg hne]
    · by_cases heq : k = k₀
      · subst heq
        rw [insert]
        rw [if_neg hlt, if_pos rfl, get, get, if_neg hne, if_neg hne]
      · by_cases h₀ : k' = k₀
        · rw [insert]
          rw [if_neg hlt, if_neg heq, get, get, if_pos h₀, if_pos h₀]
        · rw [insert]
          rw [if_neg hlt, if_neg heq, get, get, if_neg h₀, if_neg h₀, ih]

theorem get_remove_ne (k k' : K) (m : SMap K V) (hne : k' ≠ k) :
    (remove k m).get k' = m.get k' := by
  induction m with
  | nil => simp [remove, get]
  | cons h t ih =>
    obtain ⟨k₀, v₀⟩ := h
    by_cases heq : k = k₀
    · rw [remove, if_pos heq, get, if_neg (heq ▸ hne)]
    · by_cases h₀ : k' = k₀
      · rw [remove, if_neg heq, get, get, if_pos h₀, if_pos h₀]
      · rw [remove, if_neg heq, get, get, if_neg h₀, if_neg h₀, ih]

theorem mem_keys_insert (a k : K) (v : V) (m : SMap K V) :
    a ∈ (insert k v m).map Prod.fst ↔ a = k ∨ a ∈ m.map Prod.fst := by
  induction m with
  | nil =>
    simp [insert]
  | cons h t ih =>
    obtain ⟨k₀, v₀⟩ := h
    by_cases hlt : k < k₀
    · rw [insert, if_pos hlt]
      simp only [List.map_cons, List.mem_cons]
    · by_cases heq : k = k₀
      · subst heq
        rw [insert, if_neg hlt, if_pos rfl]
        simp only [List.map_cons, List.mem_cons]
        tauto
      · rw [insert, if_neg hlt, if_neg heq]
        simp only [List.map_cons, List.mem_cons, ih]
        tauto

theorem sorted_insert (k : K) (v : V) (m : SMap K V) (hs : m.Sorted) :
    (insert k v m).Sorted := by
  induction m with
  | nil => simp [insert, Sorted]
  | cons h t ih =>
    obtain ⟨k₀, v₀⟩ := h
    rw [Sorted, List.pairwise_cons] at hs
    obtain ⟨hhead, htail⟩ := hs
    by_cases hlt : k < k₀
    · rw [Sorted]
      simp only [insert, if_pos hlt]
      refine List.Pairwise.cons ?_ (List.Pairwise.cons hhead htail)
      intro b hb
      rcases List.mem_cons.mp hb with hb | hb
      · rw [hb]; exact hlt
      · exact lt_trans hlt (hhead b hb)
    · by_cases heq : k = k₀
      · subst heq
        rw [Sorted]
        simp only [insert, if_neg hlt, if_pos rfl]
        exact List.Pairwise.cons hhead htail
      · have hgt : k₀ < k := by
          rcases lt_trichotomy k k₀ with h1 | h1 | h1
          · exact absurd h1 hlt
          · exact absurd h1 heq
          · exact h1
        rw [Sorted]
        simp only [insert, if_neg hlt, if_neg heq]
        refine List.Pairwise.cons ?_ (ih htail)
        intro b hb
        have hb' : b.1 = k ∨ b.1 ∈ t.map Prod.fst :=
          (mem_keys_insert b.1 k v t).mp (List.mem_map_of_mem Prod.fst hb)
        rcases hb' with hb' | hb'
        · rw [hb']; exact hgt
        · obtain ⟨p, hp, hfst⟩ := List.mem_map.mp hb'
          rw [← hfst]
          exact hhead p hp

theorem remove_sublist (k : K) (m : SMap K V) : List.Sublist (remove k m) m := by
  induction m with
  | nil => simp [remove]
  | cons h t ih =>
    by_cases heq : k = h.1
    · rw [remove]
      obtain ⟨k₀, v₀⟩ := h
      rw [if_pos heq]
      exact List.sublist_cons_self _ _
    · rw [remove]
      obtain ⟨k₀, v₀⟩ := h
      rw [if_neg heq]
      exact List.Sublist.cons₂ _ ih

theorem sorted_remove (k : K) (m : SMap K V) (hs : m.Sorted) :
    (remove k m).Sorted := by
  exact List.Pairwise.sublist (remove_sublist k m) hs

theorem get_eq_none_of_forall_lt (k : K) (m : SMap K V)
    (h : ∀ p ∈ m, k < p.1) : m.get k = none := by
  induction m with
  | nil => rfl
  | cons hd t ih =>
    obtain ⟨k₀, v₀⟩ := hd
    rw [get]
    rw [if_neg (by
      intro hc
      have := h (k₀, v₀) (List.mem_cons_self _ _)
      rw [hc] at this
      exact lt_irrefl _ this)]
    exact ih (fun p hp => h p (List.mem_cons_of_mem _ hp))

theorem get_remove_self (k : K) (m : SMap K V) (hs : m.Sorted) :
    (remove k m).get k = none := by
  induction m with
  | nil => rfl
  | cons h t ih =>
    obtain ⟨k₀, v₀⟩ := h
    rw [Sorted, List.pairwise_cons] at hs
    obtain ⟨hhead, htail⟩ := hs
    by_cases heq : k = k₀
    · rw [remove, if_pos heq]
      subst heq
      exact get_eq_none_of_forall_lt k t (fun p hp => hhead p hp)
    · rw [remove, if_neg heq, get, if_neg heq]
      exact ih htail

theorem get_eq_some_of_mem (k : K) (v : V) (m : SMap K V) (hs : m.Sorted)
    (hm : (k, v) ∈ m) : m.get k = some v := by
  induction m with
  | nil => simp at hm
  | cons h t ih =>
    obtain ⟨k₀, v₀⟩ := h
    rw [Sorted, List.pairwise_cons] at hs
    obtain ⟨hhead, htail⟩ := hs
    rcases List.mem_cons.mp hm with hm | hm
    · injection hm with h1 h2
      rw [get, if_pos h1, h2]
    · rw [get]
      rw [if_neg (by
        intro hc
        have := hhead (k, v) hm
        rw [hc] at this
        exact lt_irrefl _ this)]
      exact ih htail hm

theorem mem_of_get_eq_some (k : K) (v : V) (m : SMap K V)
    (h : m.get k = some v) : (k, v) ∈ m := by
  induction m with
  | nil => simp [get] at h
  | cons hd t ih =>
    obtain ⟨k₀, v₀⟩ := hd
    rw [get] at h
    by_cases heq : k = k₀
    · rw [if_pos heq] at h
      have hv : v₀ = v := by injection h
      rw [heq, hv]
      exact List.mem_cons_self _ _
    · rw [if_neg heq] at h
      exact List.mem_cons_of_mem _ (ih h)

end SMap

/-! ## Data model (`value_record.rs`, `stat_record.rs`, `config.rs`,
`index.rs` are not under `src/`; their definitions are modelled from the
spec, with shapes cross-checked against their uses in `db.rs`). -/

/-- Signed 64-bit wrap-around: Rust release-mode `i64` arithmetic. -/
def wrap64 (x : Int) : Int := (x + 2 ^ 63) % 2 ^ 64 - 2 ^ 63

/-- Rust `i64::abs` (wrapping at `i64::MIN`). -/
def i64_abs (x : Int) : Int := wrap64 (if x < 0 then -x else x)

/-- Wrapping `i64` addition. -/
def i64_add (a b : Int) : Int := wrap64 (a + b)

/-- Wrapping `i64` subtraction. -/
def i64_sub (a b : Int) : Int := wrap64 (a - b)

/-- Modelled from the spec: `value_record.rs` is not under `src/`.
`Value` is the tagged union of §3: `Integer(i64)`, `String`, `Boolean`,
`Array` (ordered sequence of values). -/
inductive Value where
  | integer : Int → Value
  | string : String → Value
  | boolean : Bool → Value
  | array : List Value → Value

/-- Modelled from the spec: `value_record.rs` is not under `src/`.
Record fields per §3; `id` is the 128-bit identifier (a `Nat` here),
instants are `Int` nanoseconds. -/
structure ValueRecord where
  id : Nat
  key : String
  value : Value
  created_at : Int
  updated_at : Int
  delete_at : Option Int

/-- Modelled from the spec: `ValueRecord::new` argument order taken from
the `db.rs` call sites
`ValueRecord::new(id, key, value, created_at, delete_at, updated_at)`. -/
def ValueRecord.new (id : Nat) (key : String) (value : Value)
    (created_at : Int) (delete_at : Option Int) (updated_at : Int) :
    ValueRecord :=
  { id := id
    key := key
    value := value
    created_at := created_at
    updated_at := updated_at
    delete_at := delete_at }

/-- Insert request body (`ValuePost` in `db.rs`): key, optional ttl in
seconds, value. -/
structure ValuePost where
  key : String
  ttl : Option Int
  value : Value

/-- Upsert request body (`ValuePut` in `db.rs`). -/
structure ValuePut where
  key : String
  ttl : Option Int
  value : Value

/-- Increment request body (`ValueIncrement` in `db.rs`). -/
structure ValueIncrement where
  increment : Option Int

/-- Decrement request body (`ValueDecrement` in `db.rs`). -/
structure ValueDecrement where
  decrement : Option Int

/-- Modelled from the spec: `stat_record.rs` is not under `src/`.
Counters of §3/§4.5. -/
structure StatRecord where
  reads : Nat := 0
  requests : Nat := 0
  saved_writes : Nat := 0
  writes : Nat := 0
  last_saved_at : Int := 0

/-- Modelled from the spec: bump the request counter. -/
def StatRecord.inc_requests (s : StatRecord) : StatRecord :=
  { s with requests := s.requests + 1 }

/-- Modelled from the spec: bump the read counter. -/
def StatRecord.inc_reads (s : StatRecord) : StatRecord :=
  { s with reads := s.reads + 1 }

/-- Modelled from the spec: bump the write counter. -/
def StatRecord.inc_writes (s : StatRecord) : StatRecord :=
  { s with writes := s.writes + 1 }

/-- Modelled from the spec (§3): `can_save` is true iff
`writes - saved_writes ≥ threshold` and `now - last_saved_at` is at
least the configured interval.  Argument order follows the `db.rs` call
`stats.can_save(save_triggered_after_ms, save_triggered_by_threshold)`. -/
def StatRecord.can_save (s : StatRecord) (now : Int)
    (save_triggered_after_ms : Int) (save_triggered_by_threshold : Nat) :
    Bool :=
  decide (save_triggered_by_threshold ≤ s.writes - s.saved_writes) &&
    decide (save_triggered_after_ms ≤ now - s.last_saved_at)

/-- Modelled from the spec (§3): `saved_writes := writes`,
`last_saved_at := now`. -/
def StatRecord.update_saved_writes (s : StatRecord) (now : Int) :
    StatRecord :=
  { s with saved_writes := s.writes, last_saved_at := now }

/-- Modelled from the spec: `config.rs` is not under `src/`; the
recognized options of §6 that `db.rs` reads. -/
structure Config where
  data_dir : Option String := none
  save_triggered_after_ms : Int := 0
  save_triggered_by_threshold : Nat := 0

/-- Modelled from the spec: `index.rs` is not under `src/`.  The four
ordered secondary indexes of §3, `BTreeMap`s as in the sibling
`user_index.rs`. -/
structure Index where
  created_at : SMap Int Nat
  delete_at : SMap Int Nat
  key : SMap String Nat
  updated_at : SMap Int Nat

/-- Source `Index::default()`: four empty maps. -/
def Index.default : Index :=
  { created_at := SMap.empty
    delete_at := SMap.empty
    key := SMap.empty
    updated_at := SMap.empty }

/-- The store (`Db` in `db.rs`): api keys, config, indexes, stats and
the primary id → record map. -/
structure Db where
  api_keys : List Nat
  config : Config
  indexes : Index
  stats : StatRecord
  values : SMap Nat ValueRecord

/-- Source `Db::new`. -/
def Db.new (config : Config) : Db :=
  { api_keys := []
    config := config
    indexes := Index.default
    stats := {}
    values := SMap.empty }

/-- Modelled from the spec: `error.rs` is not under `src/`; `db.rs`
raises only `Error::NotFound` (§7). -/
inductive DbError where
  | notFound : DbError

/-- Outcome of one store operation: `ok`/`err` carry the state after the
call (an `Err` in the source leaves the already-applied `stats` bump in
place); `panicked` is an `unwrap`/underflow panic, which aborts the
process. -/
inductive OpResult (ρ : Type) where
  | ok : Db → ρ → OpResult ρ
  | err : Db → DbError → OpResult ρ
  | panicked : OpResult ρ

/-! ## Store operations, transcribed from `db.rs`.  `Utc::now()` becomes
the explicit `now : Int` (nanoseconds); `Uuid::new_v4()` in `try_insert`
becomes the explicit fresh `id`. -/

/-- Source `Db::try_insert` (db.rs 420-455). -/
def Db.try_insert (db : Db) (id : Nat) (value_post : ValuePost)
    (now : Int) : OpResult (Option ValueRecord) :=
  let stats := db.stats.inc_requests
  let delete_at := value_post.ttl.map fun ttl => now + ttl * 1000000000
  let value_record :=
    ValueRecord.new id value_post.key value_post.value now delete_at now
  let values := SMap.insert id value_record db.values
  match SMap.get id values with
  | none => .ok { db with stats := stats, values := values } none
  | some result =>
    let stats := stats.inc_writes
    let created_at_idx := SMap.insert result.created_at id db.indexes.created_at
    let delete_at_idx :=
      match delete_at with
      | some d => SMap.insert d id db.indexes.delete_at
      | none => db.indexes.delete_at
    let key_idx := SMap.insert value_post.key id db.indexes.key
    let updated_at_idx := SMap.insert result.updated_at id db.indexes.updated_at
    .ok { db with
          stats := stats
          values := values
          indexes := { created_at := created_at_idx
                       delete_at := delete_at_idx
                       key := key_idx
                       updated_at := updated_at_idx } } (some result)

/-- Source `Db::try_delete_by_id` (db.rs 332-361). -/
def Db.try_delete_by_id (db : Db) (id : Nat) : OpResult (Option ValueRecord) :=
  let stats := db.stats.inc_requests
  let result := SMap.get id db.values
  let values := SMap.remove id db.values
  match result with
  | none => .ok { db with stats := stats, values := values } none
  | some result =>
    let stats := stats.inc_writes
    let created_at_idx := SMap.remove result.created_at db.indexes.created_at
    let delete_at_idx :=
      match result.delete_at with
      | some d => SMap.remove d db.indexes.delete_at
      | none => db.indexes.delete_at
    let key_idx := SMap.remove result.key db.indexes.key
    let updated_at_idx := SMap.remove result.updated_at db.indexes.updated_at
    .ok { db with
          stats := stats
          values := values
          indexes := { created_at := created_at_idx
                       delete_at := delete_at_idx
                       key := key_idx
                       updated_at := updated_at_idx } } (some result)

/-- Source `Db::try_delete_by_key` (db.rs 363-369): `key_index.get(key).unwrap()`
panics when the key is absent. -/
def Db.try_delete_by_key (db : Db) (key : String) :
    OpResult (Option ValueRecord) :=
  match SMap.get key db.indexes.key with
  | none => .panicked
  | some id => db.try_delete_by_id id

/-- Source `Db::try_increment` (db.rs 371-418): `unwrap` on the key index
panics when the key is absent; a missing primary-map entry is
`Error::NotFound`; a non-integer value returns `Ok(None)` untouched. -/
def Db.try_increment (db : Db) (key : String)
    (value_increment : ValueIncrement) (now : Int) :
    OpResult (Option ValueRecord) :=
  let stats := db.stats.inc_requests
  match SMap.get key db.indexes.key with
  | none => .panicked
  | some id =>
    match SMap.get id db.values with
    | none => .err { db with stats := stats } .notFound
    | some original_value =>
      match original_value.value with
      | Value.integer n =>
        let value :=
          match value_increment.increment with
          | none => Value.integer (i64_add n 1)
          | some increment => Value.integer (i64_add n (i64_abs increment))
        let value_record :=
          ValueRecord.new id original_value.key value
            original_value.created_at original_value.delete_at now
        let values := SMap.insert id value_record db.values
        match SMap.get id values with
        | none => .ok { db with stats := stats, values := values } none
        | some result =>
          let stats := stats.inc_writes
          let updated_at_idx :=
            SMap.insert result.updated_at id
              (SMap.remove original_value.updated_at db.indexes.updated_at)
          .ok { db with
                stats := stats
                values := values
                indexes := { db.indexes with updated_at := updated_at_idx } }
            (some result)
      | _ => .ok { db with stats := stats } none

/-- Source `Db::try_decrement` (db.rs 283-330), symmetric to `try_increment`
with wrapping subtraction of the absolute amount. -/
def Db.try_decrement (db : Db) (key : String)
    (value_decrement : ValueDecrement) (now : Int) :
    OpResult (Option ValueRecord) :=
  let stats := db.stats.inc_requests
  match SMap.get key db.indexes.key with
  | none => .panicked
  | some id =>
    match SMap.get id db.values with
    | none => .err { db with stats := stats } .notFound
    | some original_value =>
      match original_value.value with
      | Value.integer n =>
        let value :=
          match value_decrement.decrement with
          | none => Value.integer (i64_sub n 1)
          | some decrement => Value.integer (i64_sub n (i64_abs decrement))
        let value_record :=
          ValueRecord.new id original_value.key value
            original_value.created_at original_value.delete_at now
        let values := SMap.insert id value_record db.values
        match SMap.get id values with
        | none => .ok { db with stats := stats, values := values } none
        | some result =>
          let stats := stats.inc_writes
          let updated_at_idx :=
            SMap.insert result.updated_at id
              (SMap.remove original_value.updated_at db.indexes.updated_at)
          .ok { db with
                stats := stats
                values := values
                indexes := { db.indexes with updated_at := updated_at_idx } }
            (some result)
      | _ => .ok { db with stats := stats } none

/-- Source `Db::try_upsert` (db.rs 482-528). -/
def Db.try_upsert (db : Db) (value_put : ValuePut) (now : Int) :
    OpResult (Option ValueRecord) :=
  let stats := db.stats.inc_requests
  match SMap.get value_put.key db.indexes.key with
  | none => .panicked
  | some id =>
    match SMap.get id db.values with
    | none => .err { db with stats := stats } .notFound
    | some original_value =>
      let delete_at := value_put.ttl.map fun ttl => now + ttl * 1000000000
      let value_record :=
        ValueRecord.new id value_put.key value_put.value
          original_value.created_at delete_at now
      let values := SMap.insert id value_record db.values
      match SMap.get id values with
      | none => .ok { db with stats := stats, values := values } none
      | some result =>
        let stats := stats.inc_writes
        let delete_at_idx0 :=
          match original_value.delete_at with
          | some d => SMap.remove d db.indexes.delete_at
          | none => db.indexes.delete_at
        let delete_at_idx :=
          match delete_at with
          | some d => SMap.insert d id delete_at_idx0
          | none => delete_at_idx0
        let key_idx :=
          SMap.insert value_put.key id
            (SMap.remove original_value.key db.indexes.key)
        let updated_at_idx :=
          SMap.insert result.updated_at id
            (SMap.remove original_value.updated_at db.indexes.updated_at)
        .ok { db with
              stats := stats
              values := values
              indexes := { created_at := db.indexes.created_at
                           delete_at := delete_at_idx
                           key := key_idx
                           updated_at := updated_at_idx } } (some result)

/-- The id-collection loop of `Db::gc` (db.rs 70-74): every id whose
`delete_at` instant is strictly earlier than `now`, in index order. -/
def gc_collect (now : Int) (delete_at_idx : SMap Int Nat) : List Nat :=
  delete_at_idx.filterMap fun p => if now > p.1 then some p.2 else none

/-- The deletion loop of `Db::gc` (db.rs 78-80):
`for id in ids { self.try_delete_by_id(id)?; }`. -/
def Db.gc_loop : Db → List Nat → OpResult Unit
  | db, [] => .ok db ()
  | db, id :: ids =>
    match db.try_delete_by_id id with
    | .ok db' _ => Db.gc_loop db' ids
    | .err db' e => .err db' e
    | .panicked => .panicked

/-- Source `Db::gc` (db.rs 65-83). -/
def Db.gc (db : Db) (now : Int) : OpResult Unit :=
  db.gc_loop (gc_collect now db.indexes.delete_at)

/-- List sort field (`Sort` in db.rs 538-544; `Sort` is a Lean keyword,
hence `SortBy`). -/
inductive SortBy where
  | created_at : SortBy
  | key : SortBy
  | updated_at : SortBy

/-- List direction (`Direction` in db.rs 531-536). -/
inductive Direction where
  | asc : Direction
  | desc : Direction

/-- The id-gathering part of `Db::select_all` (db.rs 210-259): the
selected index in iteration order, reversed for `Desc`. -/
def select_ids (db : Db) (direction : Direction) (sort : SortBy) : List Nat :=
  match sort with
  | .created_at =>
    match direction with
    | .asc => db.indexes.created_at.map Prod.snd
    | .desc => db.indexes.created_at.reverse.map Prod.snd
  | .key =>
    match direction with
    | .asc => db.indexes.key.map Prod.snd
    | .desc => db.indexes.key.reverse.map Prod.snd
  | .updated_at =>
    match direction with
    | .asc => db.indexes.updated_at.map Prod.snd
    | .desc => db.indexes.updated_at.reverse.map Prod.snd

/-- The record-retrieval loop of `Db::select_all` (db.rs 274-278):
`values.get(&id).cloned().unwrap()` panics (`none`) on a dangling id;
`inc_reads` per record. -/
def select_loop (values : SMap Nat ValueRecord) (stats : StatRecord) :
    List Nat → Option (List ValueRecord × StatRecord)
  | [] => some ([], stats)
  | id :: ids =>
    match SMap.get id values with
    | none => none
    | some v =>
      match select_loop values stats.inc_reads ids with
      | none => none
      | some (l, stats') => some (v :: l, stats')

/-- Source `Db::select_all` (db.rs 196-281).  When `limit` or `page` is given,
both default (`limit = 10`, `page = 1`) and `(page - 1) * limit` ids are
skipped; `page - 1` is `usize` arithmetic, so `page = 0` underflows and
the call panics. -/
def Db.select_all (db : Db) (direction : Direction)
    (limit page : Option Nat) (sort : SortBy) : OpResult (List ValueRecord) :=
  let stats := db.stats.inc_requests
  let ids := select_ids db direction sort
  let paginated : Option (List Nat) :=
    if limit.isSome || page.isSome then
      let l := limit.getD 10
      let p := page.getD 1
      if p = 0 then none
      else some ((ids.drop ((p - 1) * l)).take l)
    else some ids
  match paginated with
  | none => .panicked
  | some ids =>
    match select_loop db.values stats ids with
    | none => .panicked
    | some (result, stats') => .ok { db with stats := stats' } result

/-- Modelled from the spec: the six snapshot files of §4.3 in the data
directory.  The LZ4 + JSON codec lives in the external crates
`lz4_flex`/`serde` (not repository code); §6 requires it to round-trip
every structure, so a file is embedded as the structure it serializes,
`none` when absent. -/
structure DbFiles where
  api_keys_file : Option (List Nat) := none
  created_at_file : Option (SMap Int Nat) := none
  delete_at_file : Option (SMap Int Nat) := none
  key_file : Option (SMap String Nat) := none
  updated_at_file : Option (SMap Int Nat) := none
  values_file : Option (SMap Nat ValueRecord) := none

/-- Source `Db::save` (db.rs 145-194): a no-op unless a data directory is
configured and `stats.can_save(..)` holds; otherwise writes all six
files and runs `update_saved_writes`. -/
def Db.save (db : Db) (now : Int) (files : DbFiles) : DbFiles × Db :=
  match db.config.data_dir with
  | none => (files, db)
  | some _ =>
    if db.stats.can_save now db.config.save_triggered_after_ms
        db.config.save_triggered_by_threshold then
      ({ api_keys_file := some db.api_keys
         created_at_file := some db.indexes.created_at
         delete_at_file := some db.indexes.delete_at
         key_file := some db.indexes.key
         updated_at_file := some db.indexes.updated_at
         values_file := some db.values },
       { db with stats := db.stats.update_saved_writes now })
    else (files, db)

/-- Source `Db::restore` (db.rs 91-143): with a data directory configured, each
of the six files that exists is installed into its structure; missing
files are skipped. -/
def Db.restore (db : Db) (files : DbFiles) : Db :=
  match db.config.data_dir with
  | none => db
  | some _ =>
    let db :=
      match files.api_keys_file with
      | some a => { db with api_keys := a }
      | none => db
    let db :=
      match files.created_at_file with
      | some m => { db with indexes := { db.indexes with created_at := m } }
      | none => db
    let db :=
      match files.delete_at_file with
      | some m => { db with indexes := { db.indexes with delete_at := m } }
      | none => db
    let db :=
      match files.key_file with
      | some m => { db with indexes := { db.indexes with key := m } }
      | none => db
    let db :=
      match files.updated_at_file with
      | some m => { db with indexes := { db.indexes with updated_at := m } }
      | none => db
    match files.values_file with
    | some m => { db with values := m }
    | none => db

/-! ## Operation language and reachability (for the cross-structure
invariant). -/

/-- The state after an `OpResult`: `none` when the operation panicked
(the process died, so no completed state exists). -/
def stateOf {ρ : Type} : OpResult ρ → Option Db
  | .ok db _ => some db
  | .err db _ => some db
  | .panicked => none

/-- One store mutation, with the wall-clock instant (and, for insert,
the random id) made explicit. -/
inductive Op where
  | insert (id : Nat) (value_post : ValuePost) (now : Int) : Op
  | upsert (value_put : ValuePut) (now : Int) : Op
  | increment (key : String) (value_increment : ValueIncrement) (now : Int) : Op
  | decrement (key : String) (value_decrement : ValueDecrement) (now : Int) : Op
  | delete_by_key (key : String) : Op
  | delete_by_id (id : Nat) : Op
  | gc (now : Int) : Op

/-- Run one operation, keeping the completed state (`Ok` or `Err`). -/
def Op.step : Op → Db → Option Db
  | .insert id value_post now, db => stateOf (db.try_insert id value_post now)
  | .upsert value_put now, db => stateOf (db.try_upsert value_put now)
  | .increment key vi now, db => stateOf (db.try_increment key vi now)
  | .decrement key vd now, db => stateOf (db.try_decrement key vd now)
  | .delete_by_key key, db => stateOf (db.try_delete_by_key key)
  | .delete_by_id id, db => stateOf (db.try_delete_by_id id)
  | .gc now, db => stateOf (db.gc now)

/-- Freshness side conditions under which an operation keeps the
indexes exact: an insert uses an id, key and timestamps not currently
bound, and a mutation's new `updated_at`/`delete_at` instant collides
with no *other* record's entry. -/
def Op.WF : Op → Db → Prop
  | .insert id value_post now, db =>
    SMap.get id db.values = none ∧
    SMap.get value_post.key db.indexes.key = none ∧
    SMap.get now db.indexes.created_at = none ∧
    SMap.get now db.indexes.updated_at = none ∧
    (∀ ttl, value_post.ttl = some ttl →
      SMap.get (now + ttl * 1000000000) db.indexes.delete_at = none)
  | .upsert value_put now, db =>
    (∀ j, SMap.get now db.indexes.updated_at = some j →
      SMap.get value_put.key db.indexes.key = some j) ∧
    (∀ ttl j, value_put.ttl = some ttl →
      SMap.get (now + ttl * 1000000000) db.indexes.delete_at = some j →
      SMap.get value_put.key db.indexes.key = some j)
  | .increment key _ now, db =>
    ∀ j, SMap.get now db.indexes.updated_at = some j →
      SMap.get key db.indexes.key = some j
  | .decrement key _ now, db =>
    ∀ j, SMap.get now db.indexes.updated_at = some j →
      SMap.get key db.indexes.key = some j
  | .delete_by_key _, _ => True
  | .delete_by_id _, _ => True
  | .gc _, _ => True

/-- States reachable from `Db::new` by completed operations, each step
satisfying the side condition `W`. -/
inductive Reach (W : Op → Db → Prop) (config : Config) : Db → Prop where
  | refl : Reach W config (Db.new config)
  | step {db db' : Db} {op : Op} : Reach W config db → W op db →
      op.step db = some db' → Reach W config db'

/-- The cross-structure invariant: every record is indexed under its
key, `created_at`, `updated_at` and (when set) `delete_at`, every index
entry points back to a live record carrying that attribute, records are
stored under their own id, and all five maps are sorted (so keys are
unique). -/
structure DbInv (db : Db) : Prop where
  values_sorted : db.values.Sorted
  key_sorted : db.indexes.key.Sorted
  created_sorted : db.indexes.created_at.Sorted
  updated_sorted : db.indexes.updated_at.Sorted
  delete_sorted : db.indexes.delete_at.Sorted
  id_eq : ∀ i r, SMap.get i db.values = some r → r.id = i
  key_fwd : ∀ i r, SMap.get i db.values = some r →
    SMap.get r.key db.indexes.key = some i
  created_fwd : ∀ i r, SMap.get i db.values = some r →
    SMap.get r.created_at db.indexes.created_at = some i
  updated_fwd : ∀ i r, SMap.get i db.values = some r →
    SMap.get r.updated_at db.indexes.updated_at = some i
  delete_fwd : ∀ i r d, SMap.get i db.values = some r →
    r.delete_at = some d → SMap.get d db.indexes.delete_at = some i
  key_bwd : ∀ k i, SMap.get k db.indexes.key = some i →
    ∃ r, SMap.get i db.values = some r ∧ r.key = k
  created_bwd : ∀ t i, SMap.get t db.indexes.created_at = some i →
    ∃ r, SMap.get i db.values = some r ∧ r.created_at = t
  updated_bwd : ∀ t i, SMap.get t db.indexes.updated_at = some i →
    ∃ r, SMap.get i db.values = some r ∧ r.updated_at = t
  delete_bwd : ∀ t i, SMap.get t db.indexes.delete_at = some i →
    ∃ r, SMap.get i db.values = some r ∧ r.delete_at = some t

/-- The fresh store satisfies the invariant. -/
theorem inv_new (config : Config) : DbInv (Db.new config) := by
  refine ⟨List.Pairwise.nil, List.Pairwise.nil, List.Pairwise.nil,
    List.Pairwise.nil, List.Pairwise.nil, ?_, ?_, ?_, ?_, ?_, ?_, ?_, ?_, ?_⟩
  · intro i r h
    simp [Db.new, SMap.empty, SMap.get] at h
  · intro i r h
    simp [Db.new, SMap.empty, SMap.get] at h
  · intro i r h
    simp [Db.new, SMap.empty, SMap.get] at h
  · intro i r h
    simp [Db.new, SMap.empty, SMap.get] at h
  · intro i r d h hd
    simp [Db.new, SMap.empty, SMap.get] at h
  · intro k i h
    simp [Db.new, SMap.empty, SMap.get] at h
  · intro t i h
    simp [Db.new, SMap.empty, SMap.get] at h
  · intro t i h
    simp [Db.new, SMap.empty, SMap.get] at h
  · intro t i h
    simp [Db.new, SMap.empty, SMap.get] at h

/-- Operation `try_delete_by_id` preserves the invariant (no side condition). -/
theorem inv_try_delete_by_id (db : Db) (id : Nat) (hinv : DbInv db)
    (db' : Db) (res : Option ValueRecord)
    (h : db.try_delete_by_id id = .ok db' res) : DbInv db' := by
  rw [Db.try_delete_by_id] at h
  rcases hget : SMap.get id db.values with _ | r
  · rw [hget] at h
    injection h with h1 h2
    subst h1
    refine ⟨SMap.sorted_remove _ _ hinv.values_sorted, hinv.key_sorted,
      hinv.created_sorted, hinv.updated_sorted, hinv.delete_sorted,
      ?_, ?_, ?_, ?_, ?_, ?_, ?_, ?_, ?_⟩
    · intro i r hr
      by_cases hi : i = id
      · rw [hi, SMap.get_remove_self _ _ hinv.values_sorted] at hr
        cases hr
      · rw [SMap.get_remove_ne _ _ _ hi] at hr
        exact hinv.id_eq i r hr
    · intro i r hr
      by_cases hi : i = id
      · rw [hi, SMap.get_remove_self _ _ hinv.values_sorted] at hr
        cases hr
      · rw [SMap.get_remove_ne _ _ _ hi] at hr
        exact hinv.key_fwd i r hr
    · intro i r hr
      by_cases hi : i = id
      · rw [hi, SMap.get_remove_self _ _ hinv.values_sorted] at hr
        cases hr
      · rw [SMap.get_remove_ne _ _ _ hi] at hr
        exact hinv.created_fwd i r hr
    · intro i r hr
      by_cases hi : i = id
      · rw [hi, SMap.get_remove_self _ _ hinv.values_sorted] at hr
        cases hr
      · rw [SMap.get_remove_ne _ _ _ hi] at hr
        exact hinv.updated_fwd i r hr
    · intro i r d hr hd
      by_cases hi : i = id
      · rw [hi, SMap.get_remove_self _ _ hinv.values_sorted] at hr
        cases hr
      · rw [SMap.get_remove_ne _ _ _ hi] at hr
        exact hinv.delete_fwd i r d hr hd
    · intro k i hk
      obtain ⟨r, hr, hrk⟩ := hinv.key_bwd k i hk
      refine ⟨r, ?_, hrk⟩
      by_cases hi : i = id
      · rw [hi] at hr
        rw [hr] at hget
        cases hget
      · rw [SMap.get_remove_ne _ _ _ hi]
        exact hr
    · intro t i ht
      obtain ⟨r, hr, hrt⟩ := hinv.created_bwd t i ht
      refine ⟨r, ?_, hrt⟩
      by_cases hi : i = id
      · rw [hi] at hr
        rw [hr] at hget
        cases hget
      · rw [SMap.get_remove_ne _ _ _ hi]
        exact hr
    · intro t i ht
      obtain ⟨r, hr, hrt⟩ := hinv.updated_bwd t i ht
      refine ⟨r, ?_, hrt⟩
      by_cases hi : i = id
      · rw [hi] at hr
        rw [hr] at hget
        cases hget
      · rw [SMap.get_remove_ne _ _ _ hi]
        exact hr
    · intro t i ht
      obtain ⟨r, hr, hrt⟩ := hinv.delete_bwd t i ht
      refine ⟨r, ?_, hrt⟩
      by_cases hi : i = id
      · rw [hi] at hr
        rw [hr] at hget
        cases hget
      · rw [SMap.get_remove_ne _ _ _ hi]
        exact hr
  · rw [hget] at h
    injection h with h1 h2
    subst h1
    have hrid : r.id = id := hinv.id_eq id r hget
    refine ⟨SMap.sorted_remove _ _ hinv.values_sorted,
      SMap.sorted_remove _ _ hinv.key_sorted,
      SMap.sorted_remove _ _ hinv.created_sorted,
      SMap.sorted_remove _ _ hinv.updated_sorted,
      ?_, ?_, ?_, ?_, ?_, ?_, ?_, ?_, ?_, ?_⟩
    · cases hrd0 : r.delete_at with
      | none => exact hinv.delete_sorted
      | some d => exact SMap.sorted_remove _ _ hinv.delete_sorted
    · intro i r' hr'
      by_cases hi : i = id
      · rw [hi, SMap.get_remove_self _ _ hinv.values_sorted] at hr'
        cases hr'
      · rw [SMap.get_remove_ne _ _ _ hi] at hr'
        exact hinv.id_eq i r' hr'
    · intro i r' hr'
      by_cases hi : i = id
      · rw [hi, SMap.get_remove_self _ _ hinv.values_sorted] at hr'
        cases hr'
      · rw [SMap.get_remove_ne _ _ _ hi] at hr'
        have hkey : r'.key ≠ r.key := by
          intro hc
          have h1 := hinv.key_fwd i r' hr'
          have h2 := hinv.key_fwd id r hget
          rw [hc] at h1
          rw [h1] at h2
          injection h2 with h2
          exact hi h2
        rw [SMap.get_remove_ne _ _ _ hkey]
        exact hinv.key_fwd i r' hr'
    · intro i r' hr'
      by_cases hi : i = id
      · rw [hi, SMap.get_remove_self _ _ hinv.values_sorted] at hr'
        cases hr'
      · rw [SMap.get_remove_ne _ _ _ hi] at hr'
        have hc' : r'.created_at ≠ r.created_at := by
          intro hc
          have h1 := hinv.created_fwd i r' hr'
          have h2 := hinv.created_fwd id r hget
          rw [hc] at h1
          rw [h1] at h2
          injection h2 with h2
          exact hi h2
        rw [SMap.get_remove_ne _ _ _ hc']
        exact hinv.created_fwd i r' hr'
    · intro i r' hr'
      by_cases hi : i = id
      · rw [hi, SMap.get_remove_self _ _ hinv.values_sorted] at hr'
        cases hr'
      · rw [SMap.get_remove_ne _ _ _ hi] at hr'
        have hu' : r'.updated_at ≠ r.updated_at := by
          intro hc
          have h1 := hinv.updated_fwd i r' hr'
          have h2 := hinv.updated_fwd id r hget
          rw [hc] at h1
          rw [h1] at h2
          injection h2 with h2
          exact hi h2
        rw [SMap.get_remove_ne _ _ _ hu']
        exact hinv.updated_fwd i r' hr'
    · intro i r' d hr' hd
      by_cases hi : i = id
      · rw [hi, SMap.get_remove_self _ _ hinv.values_sorted] at hr'
        cases hr'
      · rw [SMap.get_remove_ne _ _ _ hi] at hr'
        cases hrd : r.delete_at with
        | none =>
          exact hinv.delete_fwd i r' d hr' hd
        | some d0 =>
          have hdne : d ≠ d0 := by
            intro hc
            have h1 := hinv.delete_fwd i r' d hr' hd
            have h2 := hinv.delete_fwd id r d0 hget hrd
            rw [hc] at h1
            rw [h1] at h2
            injection h2 with h2
            exact hi h2
          rw [SMap.get_remove_ne _ _ _ hdne]
          exact hinv.delete_fwd i r' d hr' hd
    · intro k i hk
      by_cases hkk : k = r.key
      · rw [hkk, SMap.get_remove_self _ _ hinv.key_sorted] at hk
        cases hk
      · rw [SMap.get_remove_ne _ _ _ hkk] at hk
        obtain ⟨r', hr', hrk⟩ := hinv.key_bwd k i hk
        have hi : i ≠ id := by
          intro hc
          rw [hc] at hr'
          rw [hr'] at hget
          injection hget with hg
          rw [hg] at hrk
          exact hkk hrk.symm
        exact ⟨r', by rw [SMap.get_remove_ne _ _ _ hi]; exact hr', hrk⟩
    · intro t i ht
      by_cases htt : t = r.created_at
      · rw [htt, SMap.get_remove_self _ _ hinv.created_sorted] at ht
        cases ht
      · rw [SMap.get_remove_ne _ _ _ htt] at ht
        obtain ⟨r', hr', hrt⟩ := hinv.created_bwd t i ht
        have hi : i ≠ id := by
          intro hc
          rw [hc] at hr'
          rw [hr'] at hget
          injection hget with hg
          rw [hg] at hrt
          exact htt hrt.symm
        exact ⟨r', by rw [SMap.get_remove_ne _ _ _ hi]; exact hr', hrt⟩
    · intro t i ht
      by_cases htt : t = r.updated_at
      · rw [htt, SMap.get_remove_self _ _ hinv.updated_sorted] at ht
        cases ht
      · rw [SMap.get_remove_ne _ _ _ htt] at ht
        obtain ⟨r', hr', hrt⟩ := hinv.updated_bwd t i ht
        have hi : i ≠ id := by
          intro hc
          rw [hc] at hr'
          rw [hr'] at hget
          injection hget with hg
          rw [hg] at hrt
          exact htt hrt.symm
        exact ⟨r', by rw [SMap.get_remove_ne _ _ _ hi]; exact hr', hrt⟩
    · intro t i ht
      cases hrd : r.delete_at with
      | none =>
        rw [hrd] at ht
        obtain ⟨r', hr', hrt⟩ := hinv.delete_bwd t i ht
        have hi : i ≠ id := by
          intro hc
          rw [hc] at hr'
          rw [hr'] at hget
          injection hget with hg
          rw [hg, hrd] at hrt
          cases hrt
        exact ⟨r', by rw [SMap.get_remove_ne _ _ _ hi]; exact hr', hrt⟩
      | some d0 =>
        rw [hrd] at ht
        by_cases htt : t = d0
        · rw [htt, SMap.get_remove_self _ _ hinv.delete_sorted] at ht
          cases ht
        · rw [SMap.get_remove_ne _ _ _ htt] at ht
          obtain ⟨r', hr', hrt⟩ := hinv.delete_bwd t i ht
          have hi : i ≠ id := by
            intro hc
            rw [hc] at hr'
            rw [hr'] at hget
            injection hget with hg
            rw [hg, hrd] at hrt
            injection hrt with hrt
            exact htt hrt.symm
          exact ⟨r', by rw [SMap.get_remove_ne _ _ _ hi]; exact hr', hrt⟩

/-- The conditional `delete_at`-index insertion shared by `try_insert`
and `try_upsert`: insert when the new record carries a `delete_at`. -/
def insert_da (da : Option Int) (id : Nat) (m : SMap Int Nat) : SMap Int Nat :=
  match da with
  | some d => SMap.insert d id m
  | none => m

/-- The conditional `delete_at`-index removal shared by
`try_delete_by_id` and `try_upsert`: remove the old record's entry when
it had a `delete_at`. -/
def remove_da (da : Option Int) (m : SMap Int Nat) : SMap Int Nat :=
  match da with
  | some d => SMap.remove d m
  | none => m

/-- Invariant preservation core for `try_insert`: installing a fresh
record (fresh id, key and instants) into the primary map and all four
indexes keeps the cross-structure invariant. -/
theorem inv_insert_aux (db : Db) (hinv : DbInv db) (id : Nat)
    (key : String) (v : Value) (now : Int) (da : Option Int)
    (st : StatRecord)
    (hid : SMap.get id db.values = none)
    (hkey : SMap.get key db.indexes.key = none)
    (hcr : SMap.get now db.indexes.created_at = none)
    (hup : SMap.get now db.indexes.updated_at = none)
    (hda : ∀ d, da = some d → SMap.get d db.indexes.delete_at = none) :
    DbInv { db with
      stats := st
      values := SMap.insert id
        { id := id
          key := key
          value := v
          created_at := now
          updated_at := now
          delete_at := da } db.values
      indexes := { created_at := SMap.insert now id db.indexes.created_at
                   delete_at := insert_da da id db.indexes.delete_at
                   key := SMap.insert key id db.indexes.key
                   updated_at := SMap.insert now id db.indexes.updated_at } } := by
  refine ⟨SMap.sorted_insert _ _ _ hinv.values_sorted,
    SMap.sorted_insert _ _ _ hinv.key_sorted,
    SMap.sorted_insert _ _ _ hinv.created_sorted,
    SMap.sorted_insert _ _ _ hinv.updated_sorted,
    ?_, ?_, ?_, ?_, ?_, ?_, ?_, ?_, ?_, ?_⟩
  · cases da with
    | none => simpa only [insert_da] using hinv.delete_sorted
    | some d =>
      simpa only [insert_da] using SMap.sorted_insert _ _ _ hinv.delete_sorted
  · intro i r hr
    by_cases hi : i = id
    · subst hi
      rw [SMap.get_insert_self] at hr
      injection hr with hr
      rw [← hr]
    · rw [SMap.get_insert_ne _ _ _ _ hi] at hr
      exact hinv.id_eq i r hr
  · intro i r hr
    by_cases hi : i = id
    · subst hi
      rw [SMap.get_insert_self] at hr
      injection hr with hr
      rw [← hr]
      exact SMap.get_insert_self _ _ _
    · rw [SMap.get_insert_ne _ _ _ _ hi] at hr
      have hne : r.key ≠ key := by
        intro hc
        have h1 := hinv.key_fwd i r hr
        rw [hc, hkey] at h1
        cases h1
      rw [SMap.get_insert_ne _ _ _ _ hne]
      exact hinv.key_fwd i r hr
  · intro i r hr
    by_cases hi : i = id
    · subst hi
      rw [SMap.get_insert_self] at hr
      injection hr with hr
      rw [← hr]
      exact SMap.get_insert_self _ _ _
    · rw [SMap.get_insert_ne _ _ _ _ hi] at hr
      have hne : r.created_at ≠ now := by
        intro hc
        have h1 := hinv.created_fwd i r hr
        rw [hc, hcr] at h1
        cases h1
      rw [SMap.get_insert_ne _ _ _ _ hne]
      exact hinv.created_fwd i r hr
  · intro i r hr
    by_cases hi : i = id
    · subst hi
      rw [SMap.get_insert_self] at hr
      injection hr with hr
      rw [← hr]
      exact SMap.get_insert_self _ _ _
    · rw [SMap.get_insert_ne _ _ _ _ hi] at hr
      have hne : r.updated_at ≠ now := by
        intro hc
        have h1 := hinv.updated_fwd i r hr
        rw [hc, hup] at h1
        cases h1
      rw [SMap.get_insert_ne _ _ _ _ hne]
      exact hinv.updated_fwd i r hr
  · intro i r d hr hd
    by_cases hi : i = id
    · subst hi
      rw [SMap.get_insert_self] at hr
      injection hr with hr
      rw [← hr] at hd
      simp only at hd
      rw [hd]
      simp only [insert_da]
      exact SMap.get_insert_self _ _ _
    · rw [SMap.get_insert_ne _ _ _ _ hi] at hr
      cases hdacase : da with
      | none =>
        simp only [insert_da]
        exact hinv.delete_fwd i r d hr hd
      | some d0 =>
        simp only [insert_da]
        have hne : d ≠ d0 := by
          intro hc
          have h1 := hinv.delete_fwd i r d hr hd
          have h2 := hda d0 hdacase
          rw [hc, h2] at h1
          cases h1
        rw [SMap.get_insert_ne _ _ _ _ hne]
        exact hinv.delete_fwd i r d hr hd
  · intro k' i hk'
    by_cases hkk : k' = key
    · subst hkk
      rw [SMap.get_insert_self] at hk'
      injection hk' with hk'
      subst hk'
      exact ⟨_, SMap.get_insert_self _ _ _, rfl⟩
    · rw [SMap.get_insert_ne _ _ _ _ hkk] at hk'
      obtain ⟨r, hr, hrk⟩ := hinv.key_bwd k' i hk'
      have hi : i ≠ id := by
        intro hc
        rw [hc, hid] at hr
        cases hr
      exact ⟨r, by rw [SMap.get_insert_ne _ _ _ _ hi]; exact hr, hrk⟩
  · intro t i ht
    by_cases htt : t = now
    · subst htt
      rw [SMap.get_insert_self] at ht
      injection ht with ht
      subst ht
      exact ⟨_, SMap.get_insert_self _ _ _, rfl⟩
    · rw [SMap.get_insert_ne _ _ _ _ htt] at ht
      obtain ⟨r, hr, hrt⟩ := hinv.created_bwd t i ht
      have hi : i ≠ id := by
        intro hc
        rw [hc, hid] at hr
        cases hr
      exact ⟨r, by rw [SMap.get_insert_ne _ _ _ _ hi]; exact hr, hrt⟩
  · intro t i ht
    by_cases htt : t = now
    · subst htt
      rw [SMap.get_insert_self] at ht
      injection ht with ht
      subst ht
      exact ⟨_, SMap.get_insert_self _ _ _, rfl⟩
    · rw [SMap.get_insert_ne _ _ _ _ htt] at ht
      obtain ⟨r, hr, hrt⟩ := hinv.updated_bwd t i ht
      have hi : i ≠ id := by
        intro hc
        rw [hc, hid] at hr
        cases hr
      exact ⟨r, by rw [SMap.get_insert_ne _ _ _ _ hi]; exact hr, hrt⟩
  · intro t i ht
    cases hdacase : da with
    | none =>
      rw [hdacase] at ht
      simp only [insert_da] at ht
      obtain ⟨r, hr, hrt⟩ := hinv.delete_bwd t i ht
      have hi : i ≠ id := by
        intro hc
        rw [hc, hid] at hr
        cases hr
      exact ⟨r, by rw [SMap.get_insert_ne _ _ _ _ hi]; exact hr, hrt⟩
    | some d0 =>
      rw [hdacase] at ht
      simp only [insert_da] at ht
      by_cases htt : t = d0
      · subst htt
        rw [SMap.get_insert_self] at ht
        injection ht with ht
        subst ht
        exact ⟨_, SMap.get_insert_self _ _ _, rfl⟩
      · rw [SMap.get_insert_ne _ _ _ _ htt] at ht
        obtain ⟨r, hr, hrt⟩ := hinv.delete_bwd t i ht
        have hi : i ≠ id := by
          intro hc
          rw [hc, hid] at hr
          cases hr
        exact ⟨r, by rw [SMap.get_insert_ne _ _ _ _ hi]; exact hr, hrt⟩

/-- Operation `try_insert` preserves the invariant when the id, the key and the
fresh instants are not yet bound (the `Op.WF` conditions for insert). -/
theorem inv_try_insert (db : Db) (id : Nat) (value_post : ValuePost)
    (now : Int) (hinv : DbInv db)
    (hid : SMap.get id db.values = none)
    (hkey : SMap.get value_post.key db.indexes.key = none)
    (hcr : SMap.get now db.indexes.created_at = none)
    (hup : SMap.get now db.indexes.updated_at = none)
    (httl : ∀ ttl, value_post.ttl = some ttl →
      SMap.get (now + ttl * 1000000000) db.indexes.delete_at = none)
    (db' : Db) (res : Option ValueRecord)
    (h : db.try_insert id value_post now = .ok db' res) : DbInv db' := by
  have hda : ∀ d,
      (value_post.ttl.map fun ttl => now + ttl * 1000000000) = some d →
      SMap.get d db.indexes.delete_at = none := by
    intro d hd
    rcases Option.map_eq_some'.mp hd with ⟨ttl, httl1, heq⟩
    rw [← heq]
    exact httl ttl httl1
  simp only [Db.try_insert, ValueRecord.new, SMap.get_insert_self] at h
  injection h with h1 h2
  subst h1
  exact inv_insert_aux db hinv id value_post.key value_post.value now
    (value_post.ttl.map fun ttl => now + ttl * 1000000000)
    db.stats.inc_requests.inc_writes hid hkey hcr hup hda

/-- The invariant ignores `stats` (and `api_keys`/`config`). -/
theorem dbinv_stats (db : Db) (st : StatRecord) (hinv : DbInv db) :
    DbInv { db with stats := st } :=
  ⟨hinv.values_sorted, hinv.key_sorted, hinv.created_sorted,
   hinv.updated_sorted, hinv.delete_sorted, hinv.id_eq, hinv.key_fwd,
   hinv.created_fwd, hinv.updated_fwd, hinv.delete_fwd, hinv.key_bwd,
   hinv.created_bwd, hinv.updated_bwd, hinv.delete_bwd⟩

/-- Invariant preservation core for `try_increment`/`try_decrement`:
replacing a record's value and moving its `updated_at` entry to a fresh
instant keeps the cross-structure invariant. -/
theorem inv_update_aux (db : Db) (hinv : DbInv db) (id : Nat)
    (orig : ValueRecord) (v : Value) (now : Int) (st : StatRecord)
    (horig : SMap.get id db.values = some orig)
    (hnow : ∀ j, SMap.get now db.indexes.updated_at = some j → j = id) :
    DbInv { db with
      stats := st
      values := SMap.insert id
        { id := id
          key := orig.key
          value := v
          created_at := orig.created_at
          updated_at := now
          delete_at := orig.delete_at } db.values
      indexes := { db.indexes with
                   updated_at := SMap.insert now id
                     (SMap.remove orig.updated_at db.indexes.updated_at) } } := by
  refine ⟨SMap.sorted_insert _ _ _ hinv.values_sorted,
    hinv.key_sorted, hinv.created_sorted,
    SMap.sorted_insert _ _ _ (SMap.sorted_remove _ _ hinv.updated_sorted),
    hinv.delete_sorted, ?_, ?_, ?_, ?_, ?_, ?_, ?_, ?_, ?_⟩
  · intro i r hr
    by_cases hi : i = id
    · subst hi
      rw [SMap.get_insert_self] at hr
      injection hr with hr
      rw [← hr]
    · rw [SMap.get_insert_ne _ _ _ _ hi] at hr
      exact hinv.id_eq i r hr
  · intro i r hr
    by_cases hi : i = id
    · subst hi
      rw [SMap.get_insert_self] at hr
      injection hr with hr
      rw [← hr]
      exact hinv.key_fwd _ orig horig
    · rw [SMap.get_insert_ne _ _ _ _ hi] at hr
      exact hinv.key_fwd i r hr
  · intro i r hr
    by_cases hi : i = id
    · subst hi
      rw [SMap.get_insert_self] at hr
      injection hr with hr
      rw [← hr]
      exact hinv.created_fwd _ orig horig
    · rw [SMap.get_insert_ne _ _ _ _ hi] at hr
      exact hinv.created_fwd i r hr
  · intro i r hr
    by_cases hi : i = id
    · subst hi
      rw [SMap.get_insert_self] at hr
      injection hr with hr
      rw [← hr]
      exact SMap.get_insert_self _ _ _
    · rw [SMap.get_insert_ne _ _ _ _ hi] at hr
      have h1 := hinv.updated_fwd i r hr
      have hne1 : r.updated_at ≠ now := by
        intro hc
        rw [hc] at h1
        exact hi (hnow i h1)
      have hne2 : r.updated_at ≠ orig.updated_at := by
        intro hc
        have h2 := hinv.updated_fwd id orig horig
        rw [hc] at h1
        rw [h1] at h2
        injection h2 with h2
        exact hi h2
      rw [SMap.get_insert_ne _ _ _ _ hne1, SMap.get_remove_ne _ _ _ hne2]
      exact h1
  · intro i r d hr hd
    by_cases hi : i = id
    · subst hi
      rw [SMap.get_insert_self] at hr
      injection hr with hr
      rw [← hr] at hd
      simp only at hd
      exact hinv.delete_fwd _ orig d horig hd
    · rw [SMap.get_insert_ne _ _ _ _ hi] at hr
      exact hinv.delete_fwd i r d hr hd
  · intro k i hk
    obtain ⟨r, hr, hrk⟩ := hinv.key_bwd k i hk
    by_cases hi : i = id
    · subst hi
      rw [horig] at hr
      injection hr with hr
      refine ⟨_, SMap.get_insert_self _ _ _, ?_⟩
      simp only
      rw [hr]
      exact hrk
    · exact ⟨r, by rw [SMap.get_insert_ne _ _ _ _ hi]; exact hr, hrk⟩
  · intro t i ht
    obtain ⟨r, hr, hrt⟩ := hinv.created_bwd t i ht
    by_cases hi : i = id
    · subst hi
      rw [horig] at hr
      injection hr with hr
      refine ⟨_, SMap.get_insert_self _ _ _, ?_⟩
      simp only
      rw [hr]
      exact hrt
    · exact ⟨r, by rw [SMap.get_insert_ne _ _ _ _ hi]; exact hr, hrt⟩
  · intro t i ht
    by_cases htt : t = now
    · subst htt
      rw [SMap.get_insert_self] at ht
      injection ht with ht
      subst ht
      exact ⟨_, SMap.get_insert_self _ _ _, rfl⟩
    · rw [SMap.get_insert_ne _ _ _ _ htt] at ht
      by_cases hto : t = orig.updated_at
      · rw [hto, SMap.get_remove_self _ _ hinv.updated_sorted] at ht
        cases ht
      · rw [SMap.get_remove_ne _ _ _ hto] at ht
        obtain ⟨r, hr, hrt⟩ := hinv.updated_bwd t i ht
        have hi : i ≠ id := by
          intro hc
          rw [hc, horig] at hr
          injection hr with hr
          rw [hr] at hto
          exact hto hrt.symm
        exact ⟨r, by rw [SMap.get_insert_ne _ _ _ _ hi]; exact hr, hrt⟩
  · intro t i ht
    obtain ⟨r, hr, hrt⟩ := hinv.delete_bwd t i ht
    by_cases hi : i = id
    · subst hi
      rw [horig] at hr
      injection hr with hr
      refine ⟨_, SMap.get_insert_self _ _ _, ?_⟩
      simp only
      rw [hr]
      exact hrt
    · exact ⟨r, by rw [SMap.get_insert_ne _ _ _ _ hi]; exact hr, hrt⟩

/-- Operation `try_increment` preserves the invariant when the new `updated_at`
instant collides with no other record (`Op.WF` for increment); covers
the `Ok` and `Err` completions. -/
theorem inv_try_increment (db : Db) (key : String)
    (value_increment : ValueIncrement) (now : Int) (hinv : DbInv db)
    (hnow : ∀ j, SMap.get now db.indexes.updated_at = some j →
      SMap.get key db.indexes.key = some j)
    (db' : Db)
    (h : stateOf (db.try_increment key value_increment now) = some db') :
    DbInv db' := by
  rw [Db.try_increment] at h
  rcases hkid : SMap.get key db.indexes.key with _ | id
  · rw [hkid] at h
    cases h
  · rw [hkid] at h
    simp only [] at h
    rcases horig : SMap.get id db.values with _ | orig
    · rw [horig] at h
      simp only [stateOf] at h
      injection h with h
      subst h
      exact dbinv_stats db _ hinv
    · rw [horig] at h
      simp only [] at h
      have hnow' : ∀ j, SMap.get now db.indexes.updated_at = some j → j = id := by
        intro j hj
        have hkj := hnow j hj
        rw [hkid] at hkj
        injection hkj with hkj
        exact hkj.symm
      rcases horigv : orig.value with n | s | b | a
      · rw [horigv] at h
        simp only [ValueRecord.new, SMap.get_insert_self, stateOf] at h
        injection h with h
        subst h
        exact inv_update_aux db hinv id orig _ now _ horig hnow'
      · rw [horigv] at h
        simp only [stateOf] at h
        injection h with h
        subst h
        exact dbinv_stats db _ hinv
      · rw [horigv] at h
        simp only [stateOf] at h
        injection h with h
        subst h
        exact dbinv_stats db _ hinv
      · rw [horigv] at h
        simp only [stateOf] at h
        injection h with h
        subst h
        exact dbinv_stats db _ hinv

/-- Operation `try_decrement` preserves the invariant when the new `updated_at`
instant collides with no other record (`Op.WF` for decrement); covers
the `Ok` and `Err` completions. -/
theorem inv_try_decrement (db : Db) (key : String)
    (value_decrement : ValueDecrement) (now : Int) (hinv : DbInv db)
    (hnow : ∀ j, SMap.get now db.indexes.updated_at = some j →
      SMap.get key db.indexes.key = some j)
    (db' : Db)
    (h : stateOf (db.try_decrement key value_decrement now) = some db') :
    DbInv db' := by
  rw [Db.try_decrement] at h
  rcases hkid : SMap.get key db.indexes.key with _ | id
  · rw [hkid] at h
    cases h
  · rw [hkid] at h
    simp only [] at h
    rcases horig : SMap.get id db.values with _ | orig
    · rw [horig] at h
      simp only [stateOf] at h
      injection h with h
      subst h
      exact dbinv_stats db _ hinv
    · rw [horig] at h
      simp only [] at h
      have hnow' : ∀ j, SMap.get now db.indexes.updated_at = some j → j = id := by
        intro j hj
        have hkj := hnow j hj
        rw [hkid] at hkj
        injection hkj with hkj
        exact hkj.symm
      rcases horigv : orig.value with n | s | b | a
      · rw [horigv] at h
        simp only [ValueRecord.new, SMap.get_insert_self, stateOf] at h
        injection h with h
        subst h
        exact inv_update_aux db hinv id orig _ now _ horig hnow'
      · rw [horigv] at h
        simp only [stateOf] at h
        injection h with h
        subst h
        exact dbinv_stats db _ hinv
      · rw [horigv] at h
        simp only [stateOf] at h
        injection h with h
        subst h
        exact dbinv_stats db _ hinv
      · rw [horigv] at h
        simp only [stateOf] at h
        injection h with h
        subst h
        exact dbinv_stats db _ hinv

theorem insert_da_sorted (da : Option Int) (id : Nat) (m : SMap Int Nat)
    (hs : m.Sorted) : (insert_da da id m).Sorted := by
  cases da with
  | none => simpa only [insert_da] using hs
  | some d => simpa only [insert_da] using SMap.sorted_insert _ _ _ hs

theorem remove_da_sorted (da : Option Int) (m : SMap Int Nat)
    (hs : m.Sorted) : (remove_da da m).Sorted := by
  cases da with
  | none => simpa only [remove_da] using hs
  | some d => simpa only [remove_da] using SMap.sorted_remove _ _ hs

/-- Invariant preservation core for `try_upsert`: replacing a record's
value and `delete_at`, reinstalling its key entry and moving its
`updated_at` entry keeps the cross-structure invariant. -/
theorem inv_upsert_aux (db : Db) (hinv : DbInv db) (id : Nat)
    (orig : ValueRecord) (key : String) (v : Value) (now : Int)
    (da : Option Int) (st : StatRecord)
    (hkid : SMap.get key db.indexes.key = some id)
    (horig : SMap.get id db.values = some orig)
    (hnow : ∀ j, SMap.get now db.indexes.updated_at = some j → j = id)
    (hda : ∀ d j, da = some d →
      SMap.get d db.indexes.delete_at = some j → j = id) :
    DbInv { db with
      stats := st
      values := SMap.insert id
        { id := id
          key := key
          value := v
          created_at := orig.created_at
          updated_at := now
          delete_at := da } db.values
      indexes := { created_at := db.indexes.created_at
                   delete_at :=
                     insert_da da id (remove_da orig.delete_at db.indexes.delete_at)
                   key := SMap.insert key id (SMap.remove orig.key db.indexes.key)
                   updated_at := SMap.insert now id
                     (SMap.remove orig.updated_at db.indexes.updated_at) } } := by
  have horigkey : orig.key = key := by
    obtain ⟨r, hr, hrk⟩ := hinv.key_bwd key id hkid
    rw [horig] at hr
    injection hr with hr
    rw [hr]
    exact hrk
  refine ⟨SMap.sorted_insert _ _ _ hinv.values_sorted,
    SMap.sorted_insert _ _ _ (SMap.sorted_remove _ _ hinv.key_sorted),
    hinv.created_sorted,
    SMap.sorted_insert _ _ _ (SMap.sorted_remove _ _ hinv.updated_sorted),
    insert_da_sorted _ _ _ (remove_da_sorted _ _ hinv.delete_sorted),
    ?_, ?_, ?_, ?_, ?_, ?_, ?_, ?_, ?_⟩
  · intro i r hr
    by_cases hi : i = id
    · subst hi
      rw [SMap.get_insert_self] at hr
      injection hr with hr
      rw [← hr]
    · rw [SMap.get_insert_ne _ _ _ _ hi] at hr
      exact hinv.id_eq i r hr
  · intro i r hr
    by_cases hi : i = id
    · subst hi
      rw [SMap.get_insert_self] at hr
      injection hr with hr
      rw [← hr]
      exact SMap.get_insert_self _ _ _
    · rw [SMap.get_insert_ne _ _ _ _ hi] at hr
      have h1 := hinv.key_fwd i r hr
      have hne : r.key ≠ key := by
        intro hc
        rw [hc, hkid] at h1
        injection h1 with h1
        exact hi h1.symm
      have hne2 : r.key ≠ orig.key := by
        rw [horigkey]
        exact hne
      rw [SMap.get_insert_ne _ _ _ _ hne, SMap.get_remove_ne _ _ _ hne2]
      exact h1
  · intro i r hr
    by_cases hi : i = id
    · subst hi
      rw [SMap.get_insert_self] at hr
      injection hr with hr
      rw [← hr]
      exact hinv.created_fwd _ orig horig
    · rw [SMap.get_insert_ne _ _ _ _ hi] at hr
      exact hinv.created_fwd i r hr
  · intro i r hr
    by_cases hi : i = id
    · subst hi
      rw [SMap.get_insert_self] at hr
      injection hr with hr
      rw [← hr]
      exact SMap.get_insert_self _ _ _
    · rw [SMap.get_insert_ne _ _ _ _ hi] at hr
      have h1 := hinv.updated_fwd i r hr
      have hne1 : r.updated_at ≠ now := by
        intro hc
        rw [hc] at h1
        exact hi (hnow i h1)
      have hne2 : r.updated_at ≠ orig.updated_at := by
        intro hc
        have h2 := hinv.updated_fwd _ orig horig
        rw [hc] at h1
        rw [h1] at h2
        injection h2 with h2
        exact hi h2
      rw [SMap.get_insert_ne _ _ _ _ hne1, SMap.get_remove_ne _ _ _ hne2]
      exact h1
  · intro i r d hr hd
    by_cases hi : i = id
    · subst hi
      rw [SMap.get_insert_self] at hr
      injection hr with hr
      rw [← hr] at hd
      simp only at hd
      rw [hd]
      simp only [insert_da]
      exact SMap.get_insert_self _ _ _
    · rw [SMap.get_insert_ne _ _ _ _ hi] at hr
      have h1 := hinv.delete_fwd i r d hr hd
      have hstep1 : SMap.get d (remove_da orig.delete_at db.indexes.delete_at) = some i := by
        cases horigda : orig.delete_at with
        | none => simpa only [remove_da] using h1
        | some d0 =>
          simp only [remove_da]
          have hne : d ≠ d0 := by
            intro hc
            have h2 := hinv.delete_fwd _ orig d0 horig horigda
            rw [hc, h2] at h1
            injection h1 with h1
            exact hi h1.symm
          rw [SMap.get_remove_ne _ _ _ hne]
          exact h1
      cases hdacase : da with
      | none => simpa only [insert_da] using hstep1
      | some d1 =>
        simp only [insert_da]
        have hne : d ≠ d1 := by
          intro hc
          have := hda d1 i hdacase (hc ▸ h1)
          exact hi this
        rw [SMap.get_insert_ne _ _ _ _ hne]
        exact hstep1
  · intro k' i hk'
    by_cases hkk : k' = key
    · subst hkk
      rw [SMap.get_insert_self] at hk'
      injection hk' with hk'
      subst hk'
      exact ⟨_, SMap.get_insert_self _ _ _, rfl⟩
    · rw [SMap.get_insert_ne _ _ _ _ hkk] at hk'
      have hko : k' ≠ orig.key := by
        rw [horigkey]
        exact hkk
      rw [SMap.get_remove_ne _ _ _ hko] at hk'
      obtain ⟨r, hr, hrk⟩ := hinv.key_bwd k' i hk'
      have hi : i ≠ id := by
        intro hc
        rw [hc, horig] at hr
        injection hr with hr
        rw [hr] at horigkey
        rw [hrk] at horigkey
        exact hkk horigkey
      exact ⟨r, by rw [SMap.get_insert_ne _ _ _ _ hi]; exact hr, hrk⟩
  · intro t i ht
    obtain ⟨r, hr, hrt⟩ := hinv.created_bwd t i ht
    by_cases hi : i = id
    · subst hi
      rw [horig] at hr
      injection hr with hr
      refine ⟨_, SMap.get_insert_self _ _ _, ?_⟩
      simp only
      rw [hr]
      exact hrt
    · exact ⟨r, by rw [SMap.get_insert_ne _ _ _ _ hi]; exact hr, hrt⟩
  · intro t i ht
    by_cases htt : t = now
    · subst htt
      rw [SMap.get_insert_self] at ht
      injection ht with ht
      subst ht
      exact ⟨_, SMap.get_insert_self _ _ _, rfl⟩
    · rw [SMap.get_insert_ne _ _ _ _ htt] at ht
      by_cases hto : t = orig.updated_at
      · rw [hto, SMap.get_remove_self _ _ hinv.updated_sorted] at ht
        cases ht
      · rw [SMap.get_remove_ne _ _ _ hto] at ht
        obtain ⟨r, hr, hrt⟩ := hinv.updated_bwd t i ht
        have hi : i ≠ id := by
          intro hc
          rw [hc, horig] at hr
          injection hr with hr
          rw [hr] at hto
          exact hto hrt.symm
        exact ⟨r, by rw [SMap.get_insert_ne _ _ _ _ hi]; exact hr, hrt⟩
  · intro t i ht
    have hstep : SMap.get t (remove_da orig.delete_at db.indexes.delete_at) = some i →
        ∃ r, SMap.get i (SMap.insert id
          { id := id
            key := key
            value := v
            created_at := orig.created_at
            updated_at := now
            delete_at := da } db.values) = some r ∧ r.delete_at = some t := by
      intro ht1
      cases horigda : orig.delete_at with
      | none =>
        rw [horigda] at ht1
        simp only [remove_da] at ht1
        obtain ⟨r, hr, hrt⟩ := hinv.delete_bwd t i ht1
        have hi : i ≠ id := by
          intro hc
          rw [hc, horig] at hr
          injection hr with hr
          rw [← hr, horigda] at hrt
          cases hrt
        exact ⟨r, by rw [SMap.get_insert_ne _ _ _ _ hi]; exact hr, hrt⟩
      | some d0 =>
        rw [horigda] at ht1
        simp only [remove_da] at ht1
        by_cases htd : t = d0
        · rw [htd, SMap.get_remove_self _ _ hinv.delete_sorted] at ht1
          cases ht1
        · rw [SMap.get_remove_ne _ _ _ htd] at ht1
          obtain ⟨r, hr, hrt⟩ := hinv.delete_bwd t i ht1
          have hi : i ≠ id := by
            intro hc
            rw [hc, horig] at hr
            injection hr with hr
            rw [← hr, horigda] at hrt
            injection hrt with hrt
            exact htd hrt.symm
          exact ⟨r, by rw [SMap.get_insert_ne _ _ _ _ hi]; exact hr, hrt⟩
    cases hdacase : da with
    | none =>
      rw [hdacase] at ht
      simp only [insert_da] at ht
      rcases hstep ht with ⟨r, hr, hrt⟩
      rw [hdacase] at hr
      exact ⟨r, hr, hrt⟩
    | some d1 =>
      rw [hdacase] at ht
      simp only [insert_da] at ht
      by_cases htd : t = d1
      · subst htd
        rw [SMap.get_insert_self] at ht
        injection ht with ht
        subst ht
        exact ⟨_, SMap.get_insert_self _ _ _, rfl⟩
      · rw [SMap.get_insert_ne _ _ _ _ htd] at ht
        rcases hstep ht with ⟨r, hr, hrt⟩
        rw [hdacase] at hr
        exact ⟨r, hr, hrt⟩

/-- Operation `try_upsert` preserves the invariant when the new `updated_at` and
`delete_at` instants collide with no other record (`Op.WF` for
upsert). -/
theorem inv_try_upsert (db : Db) (value_put : ValuePut) (now : Int)
    (hinv : DbInv db)
    (hnowk : ∀ j, SMap.get now db.indexes.updated_at = some j →
      SMap.get value_put.key db.indexes.key = some j)
    (hdak : ∀ ttl j, value_put.ttl = some ttl →
      SMap.get (now + ttl * 1000000000) db.indexes.delete_at = some j →
      SMap.get value_put.key db.indexes.key = some j)
    (db' : Db)
    (h : stateOf (db.try_upsert value_put now) = some db') : DbInv db' := by
  rw [Db.try_upsert] at h
  rcases hkid : SMap.get value_put.key db.indexes.key with _ | id
  · rw [hkid] at h
    cases h
  · rw [hkid] at h
    simp only [] at h
    rcases horig : SMap.get id db.values with _ | orig
    · rw [horig] at h
      simp only [stateOf] at h
      injection h with h
      subst h
      exact dbinv_stats db _ hinv
    · rw [horig] at h
      simp only [ValueRecord.new, SMap.get_insert_self, stateOf] at h
      injection h with h
      subst h
      have hnow' : ∀ j, SMap.get now db.indexes.updated_at = some j → j = id := by
        intro j hj
        have hkj := hnowk j hj
        rw [hkid] at hkj
        injection hkj with hkj
        exact hkj.symm
      have hda' : ∀ d j,
          (value_put.ttl.map fun ttl => now + ttl * 1000000000) = some d →
          SMap.get d db.indexes.delete_at = some j → j = id := by
        intro d j hd hj
        rcases Option.map_eq_some'.mp hd with ⟨ttl, httl1, heq⟩
        have hkj := hdak ttl j httl1 (by rw [heq]; exact hj)
        rw [hkid] at hkj
        injection hkj with hkj
        exact hkj.symm
      exact inv_upsert_aux db hinv id orig value_put.key value_put.value now
        (value_put.ttl.map fun ttl => now + ttl * 1000000000)
        db.stats.inc_requests.inc_writes hkid horig hnow' hda'

/-- Operation `try_insert` always completes with `Ok` (db.rs 420-455 has no
error or panic path). -/
theorem try_insert_shape (db : Db) (id : Nat) (value_post : ValuePost)
    (now : Int) : ∃ db' res, db.try_insert id value_post now = .ok db' res := by
  simp only [Db.try_insert, SMap.get_insert_self]
  exact ⟨_, _, rfl⟩

/-- Operation `try_delete_by_id` always completes with `Ok`. -/
theorem try_delete_by_id_shape (db : Db) (id : Nat) :
    ∃ db' res, db.try_delete_by_id id = .ok db' res := by
  simp only [Db.try_delete_by_id]
  rcases hg : SMap.get id db.values with _ | r
  · exact ⟨_, _, rfl⟩
  · exact ⟨_, _, rfl⟩

/-- The `gc` deletion loop always completes with `Ok`. -/
theorem gc_loop_ok (ids : List Nat) :
    ∀ db : Db, ∃ db', db.gc_loop ids = .ok db' () := by
  induction ids with
  | nil =>
    intro db
    exact ⟨db, rfl⟩
  | cons id ids ih =>
    intro db
    obtain ⟨db1, r1, hsh⟩ := try_delete_by_id_shape db id
    obtain ⟨db2, h2⟩ := ih db1
    refine ⟨db2, ?_⟩
    rw [Db.gc_loop, hsh]
    exact h2

/-- The `gc` deletion loop preserves the invariant. -/
theorem inv_gc_loop (ids : List Nat) :
    ∀ db db' : Db, DbInv db → db.gc_loop ids = .ok db' () → DbInv db' := by
  induction ids with
  | nil =>
    intro db db' hinv h
    rw [Db.gc_loop] at h
    injection h with h1 h2
    subst h1
    exact hinv
  | cons id ids ih =>
    intro db db' hinv h
    rw [Db.gc_loop] at h
    cases hres : db.try_delete_by_id id with
    | ok db1 r =>
      rw [hres] at h
      exact ih db1 db' (inv_try_delete_by_id db id hinv db1 r hres) h
    | err db1 e =>
      rw [hres] at h
      cases h
    | panicked =>
      rw [hres] at h
      cases h

/-- Operation `gc` preserves the invariant. -/
theorem inv_gc (db : Db) (now : Int) (db' : Db) (u : Unit)
    (hinv : DbInv db) (h : db.gc now = .ok db' u) : DbInv db' := by
  rw [Db.gc] at h
  cases u
  exact inv_gc_loop _ db db' hinv h

/-- Every completed, well-formed operation preserves the invariant. -/
theorem inv_step (op : Op) (db db' : Db) (hinv : DbInv db)
    (hwf : op.WF db) (h : op.step db = some db') : DbInv db' := by
  cases op with
  | insert id value_post now =>
    rw [Op.step] at h
    cases hres : db.try_insert id value_post now with
    | ok db1 r =>
      rw [hres] at h
      simp only [stateOf] at h
      injection h with h
      subst h
      exact inv_try_insert db id value_post now hinv hwf.1 hwf.2.1
        hwf.2.2.1 hwf.2.2.2.1 hwf.2.2.2.2 db1 r hres
    | err db1 e =>
      obtain ⟨dbx, resx, hsh⟩ := try_insert_shape db id value_post now
      rw [hsh] at hres
      cases hres
    | panicked =>
      rw [hres] at h
      cases h
  | upsert value_put now =>
    rw [Op.step] at h
    exact inv_try_upsert db value_put now hinv hwf.1 hwf.2 db' h
  | increment key vi now =>
    rw [Op.step] at h
    exact inv_try_increment db key vi now hinv hwf db' h
  | decrement key vd now =>
    rw [Op.step] at h
    exact inv_try_decrement db key vd now hinv hwf db' h
  | delete_by_key key =>
    rw [Op.step, Db.try_delete_by_key] at h
    rcases hk : SMap.get key db.indexes.key with _ | id
    · rw [hk] at h
      cases h
    · rw [hk] at h
      simp only [] at h
      cases hres : db.try_delete_by_id id with
      | ok db1 r =>
        rw [hres] at h
        simp only [stateOf] at h
        injection h with h
        subst h
        exact inv_try_delete_by_id db id hinv db1 r hres
      | err db1 e =>
        obtain ⟨dbx, resx, hsh⟩ := try_delete_by_id_shape db id
        rw [hsh] at hres
        cases hres
      | panicked =>
        rw [hres] at h
        cases h
  | delete_by_id id =>
    rw [Op.step] at h
    cases hres : db.try_delete_by_id id with
    | ok db1 r =>
      rw [hres] at h
      simp only [stateOf] at h
      injection h with h
      subst h
      exact inv_try_delete_by_id db id hinv db1 r hres
    | err db1 e =>
      obtain ⟨dbx, resx, hsh⟩ := try_delete_by_id_shape db id
      rw [hsh] at hres
      cases hres
    | panicked =>
      rw [hres] at h
      cases h
  | gc now =>
    rw [Op.step] at h
    cases hres : db.gc now with
    | ok db1 u =>
      rw [hres] at h
      simp only [stateOf] at h
      injection h with h
      subst h
      exact inv_gc db now db1 u hinv hres
    | err db1 e =>
      rw [Db.gc] at hres
      obtain ⟨db2, h2⟩ := gc_loop_ok (gc_collect now db.indexes.delete_at) db
      rw [h2] at hres
      cases hres
    | panicked =>
      rw [hres] at h
      cases h

/-- Every state reachable by well-formed completed operations satisfies
the cross-structure invariant. -/
theorem inv_of_reach (config : Config) (db : Db)
    (h : Reach Op.WF config db) : DbInv db := by
  induction h with
  | refl => exact inv_new config
  | step hr hwf hstep ih => exact inv_step _ _ _ ih hwf hstep

/-- Membership in the gc id collection: exactly the ids indexed under a
`delete_at` instant strictly earlier than `now`. -/
theorem gc_collect_mem (now : Int) (idx : SMap Int Nat) (id : Nat) :
    id ∈ gc_collect now idx ↔ ∃ d, d < now ∧ (d, id) ∈ idx := by
  rw [gc_collect, List.mem_filterMap]
  constructor
  · rintro ⟨⟨d, j⟩, hmem, hf⟩
    by_cases hlt : now > d
    · rw [if_pos hlt] at hf
      injection hf with hf
      subst hf
      exact ⟨d, hlt, hmem⟩
    · rw [if_neg hlt] at hf
      cases hf
  · rintro ⟨d, hlt, hmem⟩
    exact ⟨(d, id), hmem, by rw [if_pos hlt]⟩

/-- The primary map after `try_delete_by_id` is the original with `id`
removed (in both the hit and miss branches). -/
theorem try_delete_by_id_values (db : Db) (id : Nat) (db' : Db)
    (res : Option ValueRecord) (h : db.try_delete_by_id id = .ok db' res) :
    db'.values = SMap.remove id db.values := by
  rw [Db.try_delete_by_id] at h
  rcases hget : SMap.get id db.values with _ | r
  · rw [hget] at h
    injection h with h1 h2
    rw [← h1]
  · rw [hget] at h
    injection h with h1 h2
    rw [← h1]

/-- After the gc deletion loop, a record survives in the primary map
iff its id was not collected. -/
theorem gc_loop_values (ids : List Nat) :
    ∀ db db' : Db, db.values.Sorted → db.gc_loop ids = .ok db' () →
      ∀ i, SMap.get i db'.values =
        if i ∈ ids then none else SMap.get i db.values := by
  induction ids with
  | nil =>
    intro db db' hs h i
    rw [Db.gc_loop] at h
    injection h with h1 h2
    subst h1
    simp
  | cons id ids ih =>
    intro db db' hs h i
    rw [Db.gc_loop] at h
    cases hres : db.try_delete_by_id id with
    | ok db1 r =>
      rw [hres] at h
      have hv : db1.values = SMap.remove id db.values :=
        try_delete_by_id_values db id db1 r hres
      have hs1 : db1.values.Sorted := by
        rw [hv]
        exact SMap.sorted_remove _ _ hs
      have hrec := ih db1 db' hs1 h i
      rw [hrec, hv]
      by_cases hmem : i ∈ ids
      · simp [hmem]
      · simp only [hmem, if_false]
        by_cases hii : i = id
        · subst hii
          rw [SMap.get_remove_self _ _ hs]
          simp [List.mem_cons, hmem]
        · rw [SMap.get_remove_ne _ _ _ hii]
          simp [List.mem_cons, hii, hmem]
    | err db1 e =>
      rw [hres] at h
      cases h
    | panicked =>
      rw [hres] at h
      cases h

/-- Core correctness of `gc` run at instant `now` on an invariant
state: it completes, collects exactly the ids indexed strictly before
`now`, afterwards a record is live iff it was live and not expired, no
expired `delete_at` index entry remains, and the invariant still
holds. -/
theorem gc_correct_core (db : Db) (now : Int) (hinv : DbInv db) :
    ∃ db', db.gc now = .ok db' () ∧
      (∀ id, id ∈ gc_collect now db.indexes.delete_at ↔
        ∃ d, d < now ∧ (d, id) ∈ db.indexes.delete_at) ∧
      (∀ i r, SMap.get i db'.values = some r ↔
        (SMap.get i db.values = some r ∧
          ∀ d, r.delete_at = some d → now ≤ d)) ∧
      (∀ d j, SMap.get d db'.indexes.delete_at = some j → now ≤ d) ∧
      DbInv db' := by
  obtain ⟨db', hloop⟩ := gc_loop_ok (gc_collect now db.indexes.delete_at) db
  have hgc : db.gc now = .ok db' () := by
    rw [Db.gc]
    exact hloop
  have hinv' : DbInv db' := inv_gc db now db' () hinv hgc
  have hvals := gc_loop_values (gc_collect now db.indexes.delete_at) db db'
    hinv.values_sorted hloop
  refine ⟨db', hgc, fun id => gc_collect_mem now db.indexes.delete_at id,
    ?_, ?_, hinv'⟩
  · intro i r
    constructor
    · intro hr
      have hv := hvals i
      rw [hr] at hv
      by_cases hmem : i ∈ gc_collect now db.indexes.delete_at
      · rw [if_pos hmem] at hv
        cases hv
      · rw [if_neg hmem] at hv
        refine ⟨hv.symm, ?_⟩
        intro d hd
        by_contra hlt
        push_neg at hlt
        have hidx := hinv.delete_fwd i r d hv.symm hd
        have : i ∈ gc_collect now db.indexes.delete_at :=
          (gc_collect_mem now db.indexes.delete_at i).mpr
            ⟨d, hlt, SMap.mem_of_get_eq_some _ _ _ hidx⟩
        exact hmem this
    · rintro ⟨hr, hnotexp⟩
      have hmem : i ∉ gc_collect now db.indexes.delete_at := by
        intro hmem
        obtain ⟨d, hlt, hdm⟩ :=
          (gc_collect_mem now db.indexes.delete_at i).mp hmem
        have hidx : SMap.get d db.indexes.delete_at = some i :=
          SMap.get_eq_some_of_mem _ _ _ hinv.delete_sorted hdm
        obtain ⟨r', hr', hrd'⟩ := hinv.delete_bwd d i hidx
        rw [hr] at hr'
        injection hr' with hr'
        rw [← hr'] at hrd'
        have := hnotexp d hrd'
        exact absurd hlt (not_lt.mpr this)
      have hv := hvals i
      rw [if_neg hmem] at hv
      rw [hv]
      exact hr
  · intro d j hdj
    obtain ⟨r, hr, hrd⟩ := hinv'.delete_bwd d j hdj
    have hv := hvals j
    rw [hr] at hv
    by_cases hmem : j ∈ gc_collect now db.indexes.delete_at
    · rw [if_pos hmem] at hv
      cases hv
    · rw [if_neg hmem] at hv
      by_contra hlt
      push_neg at hlt
      have hidx := hinv.delete_fwd j r d hv.symm hrd
      exact hmem ((gc_collect_mem now db.indexes.delete_at j).mpr
        ⟨d, hlt, SMap.mem_of_get_eq_some _ _ _ hidx⟩)

/-- The value returned by a completed, non-panicking operation. -/
def result_of {ρ : Type} : OpResult ρ → Option ρ
  | .ok _ r => some r
  | .err _ _ => none
  | .panicked => none

/-- Pure reformulation of the `select_all` retrieval loop: look every
id up in the primary map, `none` as soon as one is missing. -/
def lookups (vals : SMap Nat ValueRecord) : List Nat → Option (List ValueRecord)
  | [] => some []
  | id :: ids =>
    match SMap.get id vals, lookups vals ids with
    | some v, some l => some (v :: l)
    | _, _ => none

/-- The payload of `select_loop` is `lookups`; the threaded stats do
not influence it. -/
theorem select_loop_lookups (ids : List Nat) :
    ∀ (vals : SMap Nat ValueRecord) (st : StatRecord),
      (select_loop vals st ids).map Prod.fst = lookups vals ids := by
  induction ids with
  | nil =>
    intro vals st
    simp [select_loop, lookups]
  | cons id ids ih =>
    intro vals st
    rw [select_loop, lookups]
    rcases SMap.get id vals with _ | v
    · simp
    · have h := ih vals st.inc_reads
      rcases hsl : select_loop vals st.inc_reads ids with _ | ⟨l, st2⟩
      · rw [hsl] at h
        simp at h
        rw [← h]
        simp
      · rw [hsl] at h
        simp at h
        rw [← h]
        simp

/-- When every id is present, `lookups` succeeds. -/
theorem lookups_all_some (ids : List Nat) (vals : SMap Nat ValueRecord)
    (h : ∀ id ∈ ids, ∃ r, SMap.get id vals = some r) :
    ∃ l, lookups vals ids = some l := by
  induction ids with
  | nil => exact ⟨[], rfl⟩
  | cons id ids ih =>
    obtain ⟨r, hr⟩ := h id (List.mem_cons_self _ _)
    obtain ⟨l, hl⟩ := ih (fun j hj => h j (List.mem_cons_of_mem _ hj))
    refine ⟨r :: l, ?_⟩
    rw [lookups, hr, hl]

/-- Function `lookups` commutes with `take`. -/
theorem lookups_take (vals : SMap Nat ValueRecord) :
    ∀ (ids : List Nat) (l : List ValueRecord) (n : Nat),
      lookups vals ids = some l →
      lookups vals (ids.take n) = some (l.take n) := by
  intro ids
  induction ids with
  | nil =>
    intro l n h
    rw [lookups] at h
    injection h with h
    rw [← h]
    simp [lookups]
  | cons id ids ih =>
    intro l n h
    rw [lookups] at h
    rcases hg : SMap.get id vals with _ | v
    · rw [hg] at h
      cases h
    · rw [hg] at h
      rcases hl : lookups vals ids with _ | l'
      · rw [hl] at h
        cases h
      · rw [hl] at h
        injection h with h
        subst h
        cases n with
        | zero => simp [lookups]
        | succ n =>
          rw [List.take_succ_cons, lookups, hg, ih l' n hl]
          simp

/-- Function `lookups` commutes with `drop`. -/
theorem lookups_drop (vals : SMap Nat ValueRecord) :
    ∀ (ids : List Nat) (l : List ValueRecord) (n : Nat),
      lookups vals ids = some l →
      lookups vals (ids.drop n) = some (l.drop n) := by
  intro ids
  induction ids with
  | nil =>
    intro l n h
    rw [lookups] at h
    injection h with h
    rw [← h]
    simp [lookups]
  | cons id ids ih =>
    intro l n h
    rw [lookups] at h
    rcases hg : SMap.get id vals with _ | v
    · rw [hg] at h
      cases h
    · rw [hg] at h
      rcases hl : lookups vals ids with _ | l'
      · rw [hl] at h
        cases h
      · rw [hl] at h
        injection h with h
        subst h
        cases n with
        | zero =>
          rw [List.drop_zero, List.drop_zero, lookups, hg, hl]
        | succ n =>
          rw [List.drop_succ_cons, List.drop_succ_cons]
          exact ih l' n hl

/-- Applying `result_of` to the retrieval tail of `select_all` is `lookups`. -/
theorem result_of_select_loop_match (vals : SMap Nat ValueRecord)
    (st : StatRecord) (ids : List Nat) (d : Db) :
    result_of (match select_loop vals st ids with
      | none => (OpResult.panicked : OpResult (List ValueRecord))
      | some (result, stats') => OpResult.ok { d with stats := stats' } result) =
    lookups vals ids := by
  have h := select_loop_lookups ids vals st
  rcases hsl : select_loop vals st ids with _ | ⟨l, st2⟩
  · rw [hsl] at h
    simp only [Option.map_none'] at h
    rw [← h]
    rfl
  · rw [hsl] at h
    simp only [Option.map_some'] at h
    rw [← h]
    rfl

/-- Under the invariant, every id produced by `select_ids` is present
in the primary map. -/
theorem select_ids_present (db : Db) (direction : Direction) (sort : SortBy)
    (hinv : DbInv db) :
    ∀ id ∈ select_ids db direction sort, ∃ r, SMap.get id db.values = some r := by
  intro id hid
  cases sort with
  | created_at =>
    cases direction with
    | asc =>
      simp only [select_ids, List.mem_map] at hid
      obtain ⟨⟨t, j⟩, hmem, hj⟩ := hid
      simp only at hj
      obtain ⟨r, hr, _⟩ := hinv.created_bwd t id
        (SMap.get_eq_some_of_mem _ _ _ hinv.created_sorted
          (by rw [← hj]; exact hmem))
      exact ⟨r, hr⟩
    | desc =>
      simp only [select_ids, List.mem_map, List.mem_reverse] at hid
      obtain ⟨⟨t, j⟩, hmem, hj⟩ := hid
      simp only at hj
      obtain ⟨r, hr, _⟩ := hinv.created_bwd t id
        (SMap.get_eq_some_of_mem _ _ _ hinv.created_sorted
          (by rw [← hj]; exact hmem))
      exact ⟨r, hr⟩
  | key =>
    cases direction with
    | asc =>
      simp only [select_ids, List.mem_map] at hid
      obtain ⟨⟨t, j⟩, hmem, hj⟩ := hid
      simp only at hj
      obtain ⟨r, hr, _⟩ := hinv.key_bwd t id
        (SMap.get_eq_some_of_mem _ _ _ hinv.key_sorted
          (by rw [← hj]; exact hmem))
      exact ⟨r, hr⟩
    | desc =>
      simp only [select_ids, List.mem_map, List.mem_reverse] at hid
      obtain ⟨⟨t, j⟩, hmem, hj⟩ := hid
      simp only at hj
      obtain ⟨r, hr, _⟩ := hinv.key_bwd t id
        (SMap.get_eq_some_of_mem _ _ _ hinv.key_sorted
          (by rw [← hj]; exact hmem))
      exact ⟨r, hr⟩
  | updated_at =>
    cases direction with
    | asc =>
      simp only [select_ids, List.mem_map] at hid
      obtain ⟨⟨t, j⟩, hmem, hj⟩ := hid
      simp only at hj
      obtain ⟨r, hr, _⟩ := hinv.updated_bwd t id
        (SMap.get_eq_some_of_mem _ _ _ hinv.updated_sorted
          (by rw [← hj]; exact hmem))
      exact ⟨r, hr⟩
    | desc =>
      simp only [select_ids, List.mem_map, List.mem_reverse] at hid
      obtain ⟨⟨t, j⟩, hmem, hj⟩ := hid
      simp only at hj
      obtain ⟨r, hr, _⟩ := hinv.updated_bwd t id
        (SMap.get_eq_some_of_mem _ _ _ hinv.updated_sorted
          (by rw [← hj]; exact hmem))
      exact ⟨r, hr⟩

/-- Operation `select_all` without pagination retrieves the whole selected index
order. -/
theorem select_all_no_pagination (db : Db) (direction : Direction)
    (sort : SortBy) :
    result_of (db.select_all direction none none sort) =
      lookups db.values (select_ids db direction sort) := by
  rw [Db.select_all]
  exact result_of_select_loop_match db.values db.stats.inc_requests
    (select_ids db direction sort) db

/-- Operation `select_all` with explicit limit and a nonzero page retrieves the
`(page-1)*limit`-skip, `limit`-take slice of the index order. -/
theorem select_all_paged (db : Db) (direction : Direction) (sort : SortBy)
    (L p : Nat) (hp : ¬p = 0) :
    result_of (db.select_all direction (some L) (some p) sort) =
      lookups db.values
        (((select_ids db direction sort).drop ((p - 1) * L)).take L) := by
  rw [Db.select_all]
  simp only [Option.isSome_some, Bool.or_self, if_true, Option.getD_some,
    if_neg hp]
  exact result_of_select_loop_match db.values db.stats.inc_requests _ db

/-- Operation `select_all` with `page = 0` panics: the `usize` expression
`(page - 1) * limit` underflows. -/
theorem select_all_page_zero (db : Db) (direction : Direction)
    (limit : Option Nat) (sort : SortBy) :
    db.select_all direction limit (some 0) sort = .panicked := by
  rw [Db.select_all]
  simp only [Option.isSome_some, Bool.or_true, if_true, Option.getD_some,
    if_pos rfl]

/-- Operation `select_all` with only a limit defaults the page to 1. -/
theorem select_all_default_page (db : Db) (direction : Direction)
    (L : Nat) (sort : SortBy) :
    db.select_all direction (some L) none sort =
      db.select_all direction (some L) (some 1) sort := rfl

/-- Operation `select_all` with only a page defaults the limit to 10. -/
theorem select_all_default_limit (db : Db) (direction : Direction)
    (p : Nat) (sort : SortBy) :
    db.select_all direction none (some p) sort =
      db.select_all direction (some 10) (some p) sort := rfl

/-- Concatenating the `k` leading `L`-sized chunks of a list gives its
first `k·L` elements. -/
theorem take_chunks {α : Type} (l : List α) (L : Nat) :
    ∀ k : Nat, (List.range k).flatMap (fun j => (l.drop (j * L)).take L) =
      l.take (k * L) := by
  intro k
  induction k with
  | zero => simp
  | succ k ih =>
    rw [List.range_succ, List.flatMap_append, ih, List.flatMap_singleton,
      Nat.succ_mul, List.take_add]

/-- Function `select_ids` reads only the indexes. -/
theorem select_ids_congr (d1 d2 : Db) (h : d1.indexes = d2.indexes)
    (direction : Direction) (sort : SortBy) :
    select_ids d1 direction sort = select_ids d2 direction sort := by
  cases sort <;> cases direction <;> simp [select_ids, h]

/-- With a data directory configured and the save predicate true,
restoring the written snapshot into a fresh store reproduces the
primary map and all four indexes. -/
theorem save_restore_state (db : Db) (now : Int) (files : DbFiles)
    (dir : String) (hdir : db.config.data_dir = some dir)
    (hcan : db.stats.can_save now db.config.save_triggered_after_ms
      db.config.save_triggered_by_threshold = true) :
    ((Db.new db.config).restore (db.save now files).1).values = db.values ∧
    ((Db.new db.config).restore (db.save now files).1).indexes = db.indexes := by
  rw [Db.save, hdir]
  simp only []
  rw [if_pos hcan]
  rw [Db.restore]
  simp only [Db.new]
  rw [hdir]
  exact ⟨rfl, rfl⟩

/-- Successful integer increment: the result record keeps the id, key,
`created_at` and `delete_at` of the prior record, stamps `updated_at`
with `now`, and holds the wrapped sum with the absolute amount
(default 1). -/
theorem try_increment_int (db : Db) (key : String) (vi : ValueIncrement)
    (now : Int) (i : Nat) (r : ValueRecord) (n : Int)
    (hk : SMap.get key db.indexes.key = some i)
    (hv : SMap.get i db.values = some r)
    (hn : r.value = Value.integer n) :
    ∃ db', db.try_increment key vi now = .ok db'
      (some { id := i
              key := r.key
              value := match vi.increment with
                | none => Value.integer (i64_add n 1)
                | some amount => Value.integer (i64_add n (i64_abs amount))
              created_at := r.created_at
              updated_at := now
              delete_at := r.delete_at }) ∧
      SMap.get i db'.values = some
        { id := i
          key := r.key
          value := match vi.increment with
            | none => Value.integer (i64_add n 1)
            | some amount => Value.integer (i64_add n (i64_abs amount))
          created_at := r.created_at
          updated_at := now
          delete_at := r.delete_at } := by
  rw [Db.try_increment, hk]
  simp only []
  rw [hv]
  simp only []
  rw [hn]
  simp only [ValueRecord.new, SMap.get_insert_self]
  refine ⟨_, rfl, ?_⟩
  exact SMap.get_insert_self _ _ _

/-- Successful integer decrement, symmetric to `try_increment_int`. -/
theorem try_decrement_int (db : Db) (key : String) (vd : ValueDecrement)
    (now : Int) (i : Nat) (r : ValueRecord) (n : Int)
    (hk : SMap.get key db.indexes.key = some i)
    (hv : SMap.get i db.values = some r)
    (hn : r.value = Value.integer n) :
    ∃ db', db.try_decrement key vd now = .ok db'
      (some { id := i
              key := r.key
              value := match vd.decrement with
                | none => Value.integer (i64_sub n 1)
                | some amount => Value.integer (i64_sub n (i64_abs amount))
              created_at := r.created_at
              updated_at := now
              delete_at := r.delete_at }) ∧
      SMap.get i db'.values = some
        { id := i
          key := r.key
          value := match vd.decrement with
            | none => Value.integer (i64_sub n 1)
            | some amount => Value.integer (i64_sub n (i64_abs amount))
          created_at := r.created_at
          updated_at := now
          delete_at := r.delete_at } := by
  rw [Db.try_decrement, hk]
  simp only []
  rw [hv]
  simp only []
  rw [hn]
  simp only [ValueRecord.new, SMap.get_insert_self]
  refine ⟨_, rfl, ?_⟩
  exact SMap.get_insert_self _ _ _

/-- Increment on a non-integer value: `Ok(None)`, only the request
counter moves; the primary map and indexes are untouched. -/
theorem try_increment_nonint (db : Db) (key : String) (vi : ValueIncrement)
    (now : Int) (i : Nat) (r : ValueRecord)
    (hk : SMap.get key db.indexes.key = some i)
    (hv : SMap.get i db.values = some r)
    (hnot : ∀ n, r.value ≠ Value.integer n) :
    db.try_increment key vi now =
      .ok { db with stats := db.stats.inc_requests } none := by
  rw [Db.try_increment, hk]
  simp only []
  rw [hv]
  rcases hval : r.value with n | s | b | a
  · exact absurd hval (hnot n)
  all_goals simp only [hval]

/-- Decrement on a non-integer value: `Ok(None)` without mutation. -/
theorem try_decrement_nonint (db : Db) (key : String) (vd : ValueDecrement)
    (now : Int) (i : Nat) (r : ValueRecord)
    (hk : SMap.get key db.indexes.key = some i)
    (hv : SMap.get i db.values = some r)
    (hnot : ∀ n, r.value ≠ Value.integer n) :
    db.try_decrement key vd now =
      .ok { db with stats := db.stats.inc_requests } none := by
  rw [Db.try_decrement, hk]
  simp only []
  rw [hv]
  rcases hval : r.value with n | s | b | a
  · exact absurd hval (hnot n)
  all_goals simp only [hval]

/-- Successful upsert: the result record keeps the id and `created_at`
of the prior record, takes the request's key and value, stamps
`updated_at` with `now` and recomputes `delete_at` from the ttl. -/
theorem try_upsert_ok (db : Db) (value_put : ValuePut) (now : Int)
    (i : Nat) (r : ValueRecord)
    (hk : SMap.get value_put.key db.indexes.key = some i)
    (hv : SMap.get i db.values = some r) :
    ∃ db', db.try_upsert value_put now = .ok db'
      (some { id := i
              key := value_put.key
              value := value_put.value
              created_at := r.created_at
              updated_at := now
              delete_at := value_put.ttl.map fun ttl =>
                now + ttl * 1000000000 }) := by
  rw [Db.try_upsert, hk]
  simp only []
  rw [hv]
  simp only [ValueRecord.new, SMap.get_insert_self]
  exact ⟨_, rfl⟩

/-- Wrapping is the identity inside the `i64` range. -/
theorem wrap64_eq (x : Int) (h1 : -(2 ^ 63) ≤ x) (h2 : x < 2 ^ 63) :
    wrap64 x = x := by
  rw [wrap64]
  omega

/-- Rust `i64::abs` is the absolute value except at `i64::MIN`. -/
theorem i64_abs_eq (a : Int) (h1 : -(2 ^ 63) < a) (h2 : a < 2 ^ 63) :
    i64_abs a = |a| := by
  rw [i64_abs]
  by_cases ha : a < 0
  · rw [if_pos ha, wrap64_eq _ (by omega) (by omega), abs_of_neg ha]
  · rw [if_neg ha, wrap64_eq _ (by omega) (by omega),
      abs_of_nonneg (not_lt.mp ha)]

/-- Wrapping addition is addition inside the range. -/
theorem i64_add_eq (a b : Int) (h1 : -(2 ^ 63) ≤ a + b)
    (h2 : a + b < 2 ^ 63) : i64_add a b = a + b := by
  rw [i64_add, wrap64_eq _ h1 h2]

/-- Wrapping subtraction is subtraction inside the range. -/
theorem i64_sub_eq (a b : Int) (h1 : -(2 ^ 63) ≤ a - b)
    (h2 : a - b < 2 ^ 63) : i64_sub a b = a - b := by
  rw [i64_sub, wrap64_eq _ h1 h2]

/-- Reading a one-entry map. -/
theorem get_singleton {K V : Type} [LinearOrder K] (k k' : K) (v : V) :
    SMap.get k' [(k, v)] = if k' = k then some v else none := by
  rw [SMap.get]
  rfl

/-! ## Concrete states used by the counterexamples and witnesses. -/

/-- Default configuration (no data directory). -/
def cfg0 : Config := {}

/-- Insert request `{key: "a", value: Integer(1)}` without ttl. -/
def post_a1 : ValuePost := { key := "a", ttl := none, value := Value.integer 1 }

/-- A second insert request under the same key `"a"`. -/
def post_a2 : ValuePost := { key := "a", ttl := none, value := Value.integer 2 }

/-- The record created by inserting `post_a1` with id 0 at instant 1. -/
def rec0 : ValueRecord :=
  { id := 0
    key := "a"
    value := Value.integer 1
    created_at := 1
    updated_at := 1
    delete_at := none }

/-- The record created by inserting `post_a2` with id 1 at instant 2. -/
def rec1 : ValueRecord :=
  { id := 1
    key := "a"
    value := Value.integer 2
    created_at := 2
    updated_at := 2
    delete_at := none }

/-- The store after inserting `post_a1` (id 0, instant 1) into a fresh
store. -/
def db1 : Db :=
  { api_keys := []
    config := cfg0
    indexes := { created_at := [(1, 0)]
                 delete_at := []
                 key := [("a", 0)]
                 updated_at := [(1, 0)] }
    stats := { reads := 0, requests := 1, saved_writes := 0, writes := 1,
               last_saved_at := 0 }
    values := [(0, rec0)] }

/-- The store after a second `try_insert` under the already-live key
`"a"` (id 1, instant 2): two records share the key, and `by_key`
points only at the newer id. -/
def db2 : Db :=
  { api_keys := []
    config := cfg0
    indexes := { created_at := [(1, 0), (2, 1)]
                 delete_at := []
                 key := SMap.insert "a" 1 [("a", 0)]
                 updated_at := [(1, 0), (2, 1)] }
    stats := { reads := 0, requests := 2, saved_writes := 0, writes := 2,
               last_saved_at := 0 }
    values := [(0, rec0), (1, rec1)] }

theorem db0_insert_step : (Op.insert 0 post_a1 1).step (Db.new cfg0) = some db1 := rfl

theorem db1_insert_step : (Op.insert 1 post_a2 2).step db1 = some db2 := rfl

/-- A state whose key index holds a dangling id (7) absent from the
primary map. -/
def db_dangle : Db :=
  { api_keys := []
    config := cfg0
    indexes := { created_at := []
                 delete_at := []
                 key := [("a", 7)]
                 updated_at := [] }
    stats := {}
    values := [] }

/-- The singleton store `db1` satisfies the cross-structure
invariant. -/
theorem dbinv_db1 : DbInv db1 := by
  refine ⟨List.pairwise_singleton _ _, List.pairwise_singleton _ _,
    List.pairwise_singleton _ _, List.pairwise_singleton _ _,
    List.Pairwise.nil, ?_, ?_, ?_, ?_, ?_, ?_, ?_, ?_, ?_⟩
  · intro i r h
    rw [show db1.values = [(0, rec0)] from rfl, get_singleton] at h
    split_ifs at h with hi
    injection h with h
    rw [← h, hi]
    rfl
  · intro i r h
    rw [show db1.values = [(0, rec0)] from rfl, get_singleton] at h
    split_ifs at h with hi
    injection h with h
    rw [← h, hi]
    rw [show db1.indexes.key = [("a", 0)] from rfl, get_singleton,
      show rec0.key = "a" from rfl, if_pos rfl]
  · intro i r h
    rw [show db1.values = [(0, rec0)] from rfl, get_singleton] at h
    split_ifs at h with hi
    injection h with h
    rw [← h, hi]
    exact rfl
  · intro i r h
    rw [show db1.values = [(0, rec0)] from rfl, get_singleton] at h
    split_ifs at h with hi
    injection h with h
    rw [← h, hi]
    exact rfl
  · intro i r d h hd
    rw [show db1.values = [(0, rec0)] from rfl, get_singleton] at h
    split_ifs at h with hi
    injection h with h
    rw [← h] at hd
    simp [rec0] at hd
  · intro k i h
    rw [show db1.indexes.key = [("a", 0)] from rfl, get_singleton] at h
    split_ifs at h with hk
    injection h with h
    rw [← h, hk]
    exact ⟨rec0, rfl, rfl⟩
  · intro t i h
    rw [show db1.indexes.created_at = [(1, 0)] from rfl, get_singleton] at h
    split_ifs at h with ht
    injection h with h
    rw [← h, ht]
    exact ⟨rec0, rfl, rfl⟩
  · intro t i h
    rw [show db1.indexes.updated_at = [(1, 0)] from rfl, get_singleton] at h
    split_ifs at h with ht
    injection h with h
    rw [← h, ht]
    exact ⟨rec0, rfl, rfl⟩
  · intro t i h
    rw [show db1.indexes.delete_at = [] from rfl] at h
    cases h

theorem db1_key_a : SMap.get "a" db1.indexes.key = some 0 := by
  rw [show db1.indexes.key = [("a", 0)] from rfl, get_singleton, if_pos rfl]

/-! ## Claims. -/

/-- C1 (counterexample): the cross-structure invariant does not hold
for every store state reachable from the empty store by completed
operations: inserting the key `"a"` twice (the code never checks
`by_key`) reaches a state where record 0 is live with key `"a"` while
`by_key["a"]` is 1. -/
theorem claim_c1_counterexample :
    Reach (fun _ _ => True) cfg0 db2 ∧
    ¬(∀ i r, SMap.get i db2.values = some r →
      SMap.get r.key db2.indexes.key = some i) := by
  constructor
  · exact Reach.step (Reach.step Reach.refl trivial db0_insert_step)
      trivial db1_insert_step
  · intro hcsi
    have h0 := hcsi 0 rec0 rfl
    have h1 : SMap.get "a" db2.indexes.key = some 1 :=
      SMap.get_insert_self "a" 1 [("a", 0)]
    have h2 : (some 1 : Option Nat) = some 0 := h1.symm.trans h0
    exact absurd h2 (by decide)

/-- C1 (amended): for every store state reachable from the empty store
by completed operation sequences whose steps are well-formed (each
insert uses an id, key, and instants not already bound, and each
mutation's fresh `updated_at`/`delete_at` instant collides with no
other record, `Op.WF`), the cross-structure invariant holds: every
record is indexed under its key, `created_at`, `updated_at`, and — iff
set — `delete_at`, and every index entry refers to a live record with
that attribute. -/
theorem claim_c1 (config : Config) (db : Db) (h : Reach Op.WF config db) :
    DbInv db :=
  inv_of_reach config db h

theorem claim_c1_witness : Reach Op.WF cfg0 db1 ∧ DbInv db1 :=
  have hwf : Op.WF (Op.insert 0 post_a1 1) (Db.new cfg0) :=
    ⟨rfl, rfl, rfl, rfl, fun ttl h => by cases h⟩
  have hreach : Reach Op.WF cfg0 db1 :=
    Reach.step Reach.refl hwf db0_insert_step
  ⟨hreach, claim_c1 cfg0 db1 hreach⟩

/-- Configuration with a data directory and a write threshold of 5. -/
def cfg2 : Config :=
  { data_dir := some "data", save_triggered_after_ms := 0,
    save_triggered_by_threshold := 5 }

/-- State `db1` reconfigured with `cfg2`: one live record, one write since
the last snapshot, so `can_save` is false. -/
def db1c : Db := { db1 with config := cfg2 }

/-- C2 (counterexample): `save(); restore()` into a fresh store is not
a round trip for every state: with one record and one write under a
threshold of 5, `can_save` is false, `save` writes nothing, and the
restored fresh store lists no records. -/
theorem claim_c2_counterexample :
    result_of (db1c.select_all .asc none none .key) = some [rec0] ∧
    result_of (((Db.new db1c.config).restore
      (db1c.save 100 ⟨none, none, none, none, none, none⟩).1).select_all
      .asc none none .key) = some [] ∧
    ([] : List ValueRecord) ≠ [rec0] := by
  refine ⟨rfl, rfl, ?_⟩
  intro h
  cases h

/-- C2 (amended): provided a data directory is configured and
`stats.can_save` holds at the moment of the save, saving and then
restoring into a fresh store with the same configuration yields a
state whose `list(Key, Asc)` result equals the original's. -/
theorem claim_c2 (db : Db) (now : Int) (files : DbFiles) (dir : String)
    (hdir : db.config.data_dir = some dir)
    (hcan : db.stats.can_save now db.config.save_triggered_after_ms
      db.config.save_triggered_by_threshold = true) :
    result_of (((Db.new db.config).restore
      (db.save now files).1).select_all .asc none none .key) =
    result_of (db.select_all .asc none none .key) := by
  obtain ⟨hv, hi⟩ := save_restore_state db now files dir hdir hcan
  rw [select_all_no_pagination, select_all_no_pagination, hv,
    select_ids_congr _ db hi]

/-- Configuration with a data directory and zero thresholds. -/
def cfgw : Config :=
  { data_dir := some "d", save_triggered_after_ms := 0,
    save_triggered_by_threshold := 0 }

/-- State `db1` reconfigured so that `can_save` is true. -/
def db1w : Db := { db1 with config := cfgw }

theorem claim_c2_witness :
    db1w.config.data_dir = some "d" ∧
    db1w.stats.can_save 100 db1w.config.save_triggered_after_ms
      db1w.config.save_triggered_by_threshold = true ∧
    result_of (((Db.new db1w.config).restore
      (db1w.save 100 ⟨none, none, none, none, none, none⟩).1).select_all
      .asc none none .key) =
    result_of (db1w.select_all .asc none none .key) :=
  ⟨rfl, rfl, claim_c2 db1w 100 ⟨none, none, none, none, none, none⟩ "d" rfl rfl⟩

/-- C3 (failing input): `try_insert` has no `KeyExists` check. With key
`"a"` already live (record 0), a second insert under `"a"` succeeds
with a fresh id instead of failing, leaves both records in the primary
map, and repoints `by_key["a"]` at the new id — violating key
uniqueness. -/
theorem claim_c3 :
    db1.try_insert 1 post_a2 2 = .ok db2 (some rec1) ∧
    SMap.get 0 db2.values = some rec0 ∧
    SMap.get 1 db2.values = some rec1 ∧
    SMap.get "a" db2.indexes.key = some 1 ∧
    rec0.key = rec1.key :=
  ⟨rfl, rfl, rfl, SMap.get_insert_self _ _ _, rfl⟩

/-- C7 (failing input): `try_delete_by_key` on a key absent from
`by_key` panics (`key_index.get(key).unwrap()`), instead of the
specified `None`. -/
theorem claim_c7 :
    (Db.new cfg0).try_delete_by_key "a" = .panicked ∧
    SMap.get "a" (Db.new cfg0).indexes.key = none :=
  ⟨rfl, rfl⟩

/-- C8 (failing input): `select_all` panics
(`values.get(&id).cloned().unwrap()`) on a state whose key index holds
an id absent from the primary map, instead of skipping it. -/
theorem claim_c8 :
    SMap.get "a" db_dangle.indexes.key = some 7 ∧
    SMap.get 7 db_dangle.values = none ∧
    db_dangle.select_all .asc none none .key = .panicked := by
  refine ⟨?_, rfl, rfl⟩
  rw [show db_dangle.indexes.key = [("a", 7)] from rfl, get_singleton,
    if_pos rfl]

/-- C4: identity preservation. On an invariant state, whenever
`try_upsert`, `try_increment`, or `try_decrement` on a key bound to
record `r` (id `i`) succeeds with a record result, the result keeps
`i` and `r.created_at`; the key also stays, increment/decrement keep
`delete_at`, and only `updated_at` (stamped `now`) and the value
move. -/
theorem claim_c4 (db : Db) (k : String) (i : Nat) (r : ValueRecord)
    (now : Int) (hinv : DbInv db)
    (hk : SMap.get k db.indexes.key = some i)
    (hr : SMap.get i db.values = some r) :
    (∀ value_put db' res, value_put.key = k →
      db.try_upsert value_put now = .ok db' (some res) →
      res.id = i ∧ res.created_at = r.created_at ∧ res.key = r.key ∧
        res.updated_at = now) ∧
    (∀ vi db' res, db.try_increment k vi now = .ok db' (some res) →
      res.id = i ∧ res.created_at = r.created_at ∧ res.key = r.key ∧
        res.delete_at = r.delete_at ∧ res.updated_at = now) ∧
    (∀ vd db' res, db.try_decrement k vd now = .ok db' (some res) →
      res.id = i ∧ res.created_at = r.created_at ∧ res.key = r.key ∧
        res.delete_at = r.delete_at ∧ res.updated_at = now) := by
  have hrk : r.key = k := by
    obtain ⟨r', hr', hk'⟩ := hinv.key_bwd k i hk
    rw [hr] at hr'
    injection hr' with hr'
    rw [hr']
    exact hk'
  refine ⟨?_, ?_, ?_⟩
  · intro value_put db' res hpk h
    obtain ⟨db'', heq⟩ :=
      try_upsert_ok db value_put now i r (by rw [hpk]; exact hk) hr
    rw [heq] at h
    injection h with h1 h2
    injection h2 with h2
    rw [← h2]
    refine ⟨rfl, rfl, ?_, rfl⟩
    show value_put.key = r.key
    rw [hpk, hrk]
  · intro vi db' res h
    rcases hval : r.value with n | s | b | a
    · obtain ⟨db'', heq, _⟩ := try_increment_int db k vi now i r n hk hr hval
      rw [heq] at h
      injection h with h1 h2
      injection h2 with h2
      rw [← h2]
      exact ⟨rfl, rfl, rfl, rfl, rfl⟩
    · rw [try_increment_nonint db k vi now i r hk hr
        (by rw [hval]; intro m hc; cases hc)] at h
      injection h with h1 h2
      cases h2
    · rw [try_increment_nonint db k vi now i r hk hr
        (by rw [hval]; intro m hc; cases hc)] at h
      injection h with h1 h2
      cases h2
    · rw [try_increment_nonint db k vi now i r hk hr
        (by rw [hval]; intro m hc; cases hc)] at h
      injection h with h1 h2
      cases h2
  · intro vd db' res h
    rcases hval : r.value with n | s | b | a
    · obtain ⟨db'', heq, _⟩ := try_decrement_int db k vd now i r n hk hr hval
      rw [heq] at h
      injection h with h1 h2
      injection h2 with h2
      rw [← h2]
      exact ⟨rfl, rfl, rfl, rfl, rfl⟩
    · rw [try_decrement_nonint db k vd now i r hk hr
        (by rw [hval]; intro m hc; cases hc)] at h
      injection h with h1 h2
      cases h2
    · rw [try_decrement_nonint db k vd now i r hk hr
        (by rw [hval]; intro m hc; cases hc)] at h
      injection h with h1 h2
      cases h2
    · rw [try_decrement_nonint db k vd now i r hk hr
        (by rw [hval]; intro m hc; cases hc)] at h
      injection h with h1 h2
      cases h2

theorem claim_c4_witness :
    SMap.get "a" db1.indexes.key = some 0 ∧
    ∀ vi db' res, db1.try_increment "a" vi 2 = .ok db' (some res) →
      res.id = 0 ∧ res.created_at = rec0.created_at ∧ res.key = rec0.key ∧
        res.delete_at = rec0.delete_at ∧ res.updated_at = 2 :=
  ⟨db1_key_a, (claim_c4 db1 "a" 0 rec0 2 dbinv_db1 db1_key_a rfl).2.1⟩

/-- C5: garbage collection correctness. On an invariant state, `gc` at
instant `now` completes; it collects exactly the ids whose `delete_at`
index instant is strictly earlier than `now`; afterwards a record is
live iff it was live and not expired (so unexpired and TTL-free
records are unchanged); no expired `delete_at` entry remains in any
index (the invariant still holds, and the surviving `delete_at`
entries are all `≥ now`). -/
theorem claim_c5 (db : Db) (now : Int) (hinv : DbInv db) :
    ∃ db', db.gc now = .ok db' () ∧
      (∀ id, id ∈ gc_collect now db.indexes.delete_at ↔
        ∃ d, d < now ∧ (d, id) ∈ db.indexes.delete_at) ∧
      (∀ i r, SMap.get i db'.values = some r ↔
        (SMap.get i db.values = some r ∧
          ∀ d, r.delete_at = some d → now ≤ d)) ∧
      (∀ d j, SMap.get d db'.indexes.delete_at = some j → now ≤ d) ∧
      DbInv db' :=
  gc_correct_core db now hinv

theorem claim_c5_witness :
    DbInv db1 ∧ ∃ db', db1.gc 100 = .ok db' () ∧ DbInv db' :=
  ⟨dbinv_db1, by
    obtain ⟨db', h1, _, _, _, h5⟩ := claim_c5 db1 100 dbinv_db1
    exact ⟨db', h1, h5⟩⟩

/-- C6: increment/decrement arithmetic. On a key bound to
`Integer(n)`, increment by `a` yields `Integer(n + |a|)` (default
`n + 1`), decrement yields `Integer(n - |a|)` (default `n - 1`), in
signed 64-bit arithmetic (stated within the non-wrapping range); a
negative amount still contributes its magnitude. On a key bound to a
non-integer value both operations return `None` and leave the store
(beyond the request counter) untouched. -/
theorem claim_c6 (db : Db) (k : String) (i : Nat) (r : ValueRecord)
    (now n : Int)
    (hk : SMap.get k db.indexes.key = some i)
    (hr : SMap.get i db.values = some r) :
    (r.value = Value.integer n →
      (∀ a : Int, -(2 ^ 63) < a → a < 2 ^ 63 →
        -(2 ^ 63) ≤ n + |a| → n + |a| < 2 ^ 63 →
        ∃ db' res, db.try_increment k ⟨some a⟩ now = .ok db' (some res) ∧
          res.value = Value.integer (n + |a|)) ∧
      (-(2 ^ 63) ≤ n + 1 → n + 1 < 2 ^ 63 →
        ∃ db' res, db.try_increment k ⟨none⟩ now = .ok db' (some res) ∧
          res.value = Value.integer (n + 1)) ∧
      (∀ a : Int, -(2 ^ 63) < a → a < 2 ^ 63 →
        -(2 ^ 63) ≤ n - |a| → n - |a| < 2 ^ 63 →
        ∃ db' res, db.try_decrement k ⟨some a⟩ now = .ok db' (some res) ∧
          res.value = Value.integer (n - |a|)) ∧
      (-(2 ^ 63) ≤ n - 1 → n - 1 < 2 ^ 63 →
        ∃ db' res, db.try_decrement k ⟨none⟩ now = .ok db' (some res) ∧
          res.value = Value.integer (n - 1))) ∧
    ((∀ m, r.value ≠ Value.integer m) →
      db.try_increment k ⟨none⟩ now =
        .ok { db with stats := db.stats.inc_requests } none ∧
      db.try_decrement k ⟨none⟩ now =
        .ok { db with stats := db.stats.inc_requests } none ∧
      (∀ a : Int,
        db.try_increment k ⟨some a⟩ now =
          .ok { db with stats := db.stats.inc_requests } none ∧
        db.try_decrement k ⟨some a⟩ now =
          .ok { db with stats := db.stats.inc_requests } none)) := by
  constructor
  · intro hint
    refine ⟨?_, ?_, ?_, ?_⟩
    · intro a ha1 ha2 hs1 hs2
      obtain ⟨db', heq, _⟩ := try_increment_int db k ⟨some a⟩ now i r n hk hr hint
      refine ⟨db', _, heq, ?_⟩
      show Value.integer (i64_add n (i64_abs a)) = Value.integer (n + |a|)
      rw [i64_abs_eq a ha1 ha2, i64_add_eq n |a| hs1 hs2]
    · intro hs1 hs2
      obtain ⟨db', heq, _⟩ := try_increment_int db k ⟨none⟩ now i r n hk hr hint
      refine ⟨db', _, heq, ?_⟩
      show Value.integer (i64_add n 1) = Value.integer (n + 1)
      rw [i64_add_eq n 1 hs1 hs2]
    · intro a ha1 ha2 hs1 hs2
      obtain ⟨db', heq, _⟩ := try_decrement_int db k ⟨some a⟩ now i r n hk hr hint
      refine ⟨db', _, heq, ?_⟩
      show Value.integer (i64_sub n (i64_abs a)) = Value.integer (n - |a|)
      rw [i64_abs_eq a ha1 ha2, i64_sub_eq n |a| hs1 hs2]
    · intro hs1 hs2
      obtain ⟨db', heq, _⟩ := try_decrement_int db k ⟨none⟩ now i r n hk hr hint
      refine ⟨db', _, heq, ?_⟩
      show Value.integer (i64_sub n 1) = Value.integer (n - 1)
      rw [i64_sub_eq n 1 hs1 hs2]
  · intro hnot
    exact ⟨try_increment_nonint db k ⟨none⟩ now i r hk hr hnot,
      try_decrement_nonint db k ⟨none⟩ now i r hk hr hnot,
      fun a => ⟨try_increment_nonint db k ⟨some a⟩ now i r hk hr hnot,
        try_decrement_nonint db k ⟨some a⟩ now i r hk hr hnot⟩⟩

theorem claim_c6_witness :
    ∃ db' res, db1.try_increment "a" ⟨some 3⟩ 2 = .ok db' (some res) ∧
      res.value = Value.integer (1 + |(3 : Int)|) :=
  ((claim_c6 db1 "a" 0 rec0 2 1 db1_key_a rfl).1 rfl).1 3
    (by norm_num) (by norm_num) (by norm_num) (by norm_num)

/-- C9: pagination law. On an invariant state, for every sort and
direction there is a full (unpaginated) listing; with limit `L ≥ 1`
each page `p ≥ 1` returns the `(p-1)·L`-skip `L`-take slice of it;
concatenating pages 1..k reproduces the first `k·L` elements; and when
exactly one of limit/page is given the other defaults to 10 resp. 1. -/
theorem claim_c9 (db : Db) (direction : Direction) (sort : SortBy)
    (L k : Nat) (hinv : DbInv db) (hL : 1 ≤ L) :
    ∃ full,
      result_of (db.select_all direction none none sort) = some full ∧
      (∀ p, 1 ≤ p →
        result_of (db.select_all direction (some L) (some p) sort) =
          some ((full.drop ((p - 1) * L)).take L)) ∧
      ((List.range k).flatMap (fun j =>
        (result_of (db.select_all direction (some L) (some (j + 1)) sort)).getD [])
        = full.take (k * L)) ∧
      (∀ p L', db.select_all direction (some L') none sort =
          db.select_all direction (some L') (some 1) sort ∧
        db.select_all direction none (some p) sort =
          db.select_all direction (some 10) (some p) sort) := by
  obtain ⟨full, hful⟩ :=
    lookups_all_some _ _ (select_ids_present db direction sort hinv)
  have hnp : result_of (db.select_all direction none none sort) = some full := by
    rw [select_all_no_pagination]
    exact hful
  have hpage : ∀ p, 1 ≤ p →
      result_of (db.select_all direction (some L) (some p) sort) =
        some ((full.drop ((p - 1) * L)).take L) := by
    intro p hp
    rw [select_all_paged db direction sort L p (by omega)]
    exact lookups_take _ _ _ _ (lookups_drop _ _ _ _ hful)
  refine ⟨full, hnp, hpage, ?_,
    fun p L' => ⟨select_all_default_page db direction L' sort,
      select_all_default_limit db direction p sort⟩⟩
  have hfun : (fun j =>
      (result_of (db.select_all direction (some L) (some (j + 1)) sort)).getD
        ([] : List ValueRecord)) =
      fun j => (full.drop (j * L)).take L := by
    funext j
    rw [hpage (j + 1) (by omega)]
    simp
  rw [hfun, take_chunks]

theorem claim_c9_witness :
    (1 : Nat) ≤ 1 ∧
    ∃ full, result_of (db1.select_all .asc none none .key) = some full ∧
      result_of (db1.select_all .asc (some 1) (some 1) .key) =
        some ((full.drop ((1 - 1) * 1)).take 1) :=
  ⟨le_refl 1, by
    obtain ⟨full, h1, h2, _, _⟩ :=
      claim_c9 db1 .asc .key 1 1 dbinv_db1 (le_refl 1)
    exact ⟨full, h1, h2 1 (le_refl 1)⟩⟩

/-- C10: `select_all` with `page = 0` underflows the `usize`
expression `(page - 1) * limit` and panics — the spec states no lower
bound on `page`; with `page ≥ 1` (and the invariant, so no index id
dangles) the call returns a result. -/
theorem claim_c10 (db : Db) (direction : Direction) (limit : Option Nat)
    (sort : SortBy) :
    db.select_all direction limit (some 0) sort = .panicked ∧
    (DbInv db → ∀ p, 1 ≤ p →
      ∃ l, result_of (db.select_all direction limit (some p) sort) = some l) := by
  refine ⟨select_all_page_zero db direction limit sort, ?_⟩
  intro hinv p hp
  obtain ⟨full, hful⟩ :=
    lookups_all_some _ _ (select_ids_present db direction sort hinv)
  cases limit with
  | none =>
    rw [select_all_default_limit, select_all_paged db direction sort 10 p (by omega)]
    exact ⟨_, lookups_take _ _ _ _ (lookups_drop _ _ _ _ hful)⟩
  | some L =>
    rw [select_all_paged db direction sort L p (by omega)]
    exact ⟨_, lookups_take _ _ _ _ (lookups_drop _ _ _ _ hful)⟩

theorem claim_c10_witness :
    db1.select_all .asc none (some 0) .key = .panicked ∧
    ∃ l, result_of (db1.select_all .asc none (some 1) .key) = some l :=
  ⟨(claim_c10 db1 .asc none .key).1,
    (claim_c10 db1 .asc none .key).2 dbinv_db1 1 (le_refl 1)⟩
